import Mathlib

/-!
# Verification development for the `Projects` repository

Shallow embedding of the door-selection state machine of
`monty_hall/src/App.js`, of the workflow logic of the project tracker (the
auto-completion check of `EditModal.js` and `projectController.js`, the step
handlers of `WorkflowUI.js`, the method `completeWorkflowStep` of
`ProjectModel.js`), of the cipher script `cypher.js`, of the Hangman game
(`hangman/src/App.js`), of the temperature script `temperature.js` and of the
credential listing of `coolTech` (`credential.controller.js`), followed by the
theorems that settle the claims of the specification.

Conventions of the embedding.

* React state of the `App` component is a record (`Game`); every handler is a
  function from the state before the click to the state after it.
* Door numbers are JavaScript numbers; the handlers never validate them, so
  they are embedded as `Int` (the UI only ever passes `1`, `2` or `3`).
* `null`/`undefined` for a door is `none`.
* The value of `Math.random()` is an explicit argument: a double, embedded
  exactly as an integer significand and a binary exponent, and multiplied by 3
  with IEEE-754 rounding to nearest, ties to even.
* Statuses, step names and form fields are strings; dates are ISO strings.
* A handler that calls a React state setter is the function from the state
  before the event to the state after it; the current time is an argument.
* Code that can throw returns `Except`.
* A script that talks through `prompt` and `alert` is the function from the
  answers to the list of events shown; a database collection is a list.
-/

namespace MontyHall

/-! ## Data model (`App.js`, lines 6-20) -/

/-- The four values the string state `gamePhase` ever takes. -/
inductive Phase where
  | selecting
  | revealing
  | final
  | finished
deriving DecidableEq, Repr

/-- The four `useState` cells of the `App` component. -/
structure Game where
  selectedDoor : Option Int
  winningDoor : Int
  gamePhase : Phase
  montyOpenedDoor : Option Int
deriving DecidableEq, Repr

/-- The constant array `allDoors` of `getMontyDoor`. -/
def allDoors : List Int := [1, 2, 3]

/-- The array `availableDoors` of `getMontyDoor`:
`allDoors.filter(door => door !== userChoice && door !== winningDoor)`. -/
def availableDoors (winningDoor userChoice : Int) : List Int :=
  allDoors.filter (fun door => door != userChoice && door != winningDoor)

/-- Embedding of `getMontyDoor(userChoice)`: `availableDoors[0]`; the closure
variable `winningDoor` is passed explicitly. `none` stands for `undefined`
(the value of `[][0]`). -/
def getMontyDoor (winningDoor userChoice : Int) : Option Int :=
  (availableDoors winningDoor userChoice).head?

/-- Embedding of `handleDoorClick(doorNumber)` (lines 37-51). -/
def handleDoorClick (s : Game) (doorNumber : Int) : Game :=
  if s.gamePhase = Phase.selecting then
    { s with
      selectedDoor := some doorNumber
      gamePhase := Phase.revealing
      montyOpenedDoor := getMontyDoor s.winningDoor doorNumber }
  else if s.gamePhase = Phase.final then
    { s with
      selectedDoor := some doorNumber
      gamePhase := Phase.finished }
  else s

/-- The "Make Final Choice!" button (lines 90-96): it is rendered only while
`gamePhase === 'revealing'`, and its handler is `setGamePhase('final')`. -/
def makeFinalChoice (s : Game) : Game :=
  if s.gamePhase = Phase.revealing then { s with gamePhase := Phase.final } else s

/-- The result line (lines 100-104): rendered only in phase `finished`, it shows
"YOU WON" exactly when `selectedDoor === winningDoor`. `none` means that no
result is rendered. -/
def result (s : Game) : Option Bool :=
  if s.gamePhase = Phase.finished then
    some (decide (s.selectedDoor = some s.winningDoor))
  else none

/-- The state of a fresh round whose prize is behind `winningDoor`
(the initial `useState` values, and the state `resetGame` produces). -/
def freshRound (winningDoor : Int) : Game :=
  { selectedDoor := none
    winningDoor := winningDoor
    gamePhase := Phase.selecting
    montyOpenedDoor := none }

/-- The user actions of one round. -/
inductive Action where
  | click (door : Int)
  | makeFinal
deriving DecidableEq, Repr

/-- One user action applied to the state. -/
def step (s : Game) : Action → Game
  | Action.click door => handleDoorClick s door
  | Action.makeFinal => makeFinalChoice s

/-- A sequence of user actions applied from left to right. -/
def run (s : Game) (actions : List Action) : Game :=
  actions.foldl step s

/-- Whether `d` is one of the three door numbers. -/
def isDoor (d : Int) : Prop := d = 1 ∨ d = 2 ∨ d = 3

instance (d : Int) : Decidable (isDoor d) := by
  unfold isDoor; infer_instance

/-- The actions the rendered page can produce: the three door `div`s call
`handleDoorClick(1)`, `handleDoorClick(2)` and `handleDoorClick(3)` only. -/
def Action.fromUI : Action → Prop
  | Action.click door => isDoor door
  | Action.makeFinal => True

/-- The host has acted: the phase is `revealing`, `final` or `finished`. -/
def hostActed (s : Game) : Prop := s.gamePhase ≠ Phase.selecting

instance (s : Game) : Decidable (hostActed s) := by
  unfold hostActed; infer_instance

/-- The door a switching player clicks in phase `final`: the door of `allDoors`
that is neither the current `selectedDoor` nor `montyOpenedDoor`. This is the
player's strategy, not a function of `App.js`. -/
def switchDoor (s : Game) : Option Int :=
  (allDoors.filter
    (fun d => some d != s.selectedDoor && some d != s.montyOpenedDoor)).head?

/-- The state in phase `final` of a round with prize `winningDoor` in which the
player first clicked `pick` and then pressed "Make Final Choice!". -/
def beforeFinalChoice (winningDoor pick : Int) : Game :=
  makeFinalChoice (handleDoorClick (freshRound winningDoor) pick)

/-- A whole round of a player who stays: the final click is on `pick` again. -/
def playStay (winningDoor pick : Int) : Game :=
  handleDoorClick (beforeFinalChoice winningDoor pick) pick

/-- A whole round of a player who switches: the final click is on `switchDoor`;
`none` when there is no door to switch to. -/
def playSwitch (winningDoor pick : Int) : Option Game :=
  (switchDoor (beforeFinalChoice winningDoor pick)).map
    (handleDoorClick (beforeFinalChoice winningDoor pick))

/-- The nine (winningDoor, initial pick) pairs. -/
def allRounds : List (Int × Int) :=
  allDoors.flatMap (fun w => allDoors.map (fun p => (w, p)))

/-- Number of the nine rounds a switching player wins. -/
def switchWins : Nat :=
  (allRounds.filter
    (fun wp => (playSwitch wp.1 wp.2).bind result == some true)).length

/-- Number of the nine rounds a staying player wins. -/
def stayWins : Nat :=
  (allRounds.filter (fun wp => result (playStay wp.1 wp.2) == some true)).length

/-! ### Random draw and `resetGame` (`App.js`, lines 9-10 and 53-59)

`Math.random()` returns a JavaScript Number, an IEEE-754 double `r` with
`0 ≤ r < 1`; the new prize door is `Math.floor(r * 3) + 1`, where `r * 3` is the
double product, rounded to nearest with ties to even. The draw is an explicit
argument of `resetGame`. -/

/-- A finite non-negative double, given by an integer significand and a binary
exponent: the number `m * 2 ^ e`. -/
structure Dbl where
  m : Nat
  e : Int
deriving DecidableEq, Repr

/-- The rational number a `Dbl` denotes. -/
def Dbl.toRat (x : Dbl) : ℚ := (x.m : ℚ) * (2 : ℚ) ^ x.e

/-- The values `Math.random()` may return: doubles `r` with `0 ≤ r < 1`, that is
a significand below `2 ^ 53`, an exponent of the double range, and a value
`m / 2 ^ (-e)` below 1. -/
def isRandomDraw (r : Dbl) : Prop :=
  r.m < 2 ^ 53 ∧ -1074 ≤ r.e ∧ r.e < 0 ∧ r.m < 2 ^ (-r.e).toNat

instance (r : Dbl) : Decidable (isRandomDraw r) := by
  unfold isRandomDraw; infer_instance

/-- The quotient `n / d` rounded to the nearest integer, ties to the even one
(the IEEE-754 rounding mode of JavaScript arithmetic). -/
def roundTiesToEven (n d : Nat) : Nat :=
  if 2 * (n % d) < d then n / d
  else if d < 2 * (n % d) then n / d + 1
  else if (n / d) % 2 = 0 then n / d
  else n / d + 1

/-- The double product `r * 3` for a double `r` with significand below `2 ^ 53`:
the exact product has significand `3 * m` of at most 55 bits; it is rounded to 53
bits, dropping one bit below `2 ^ 54` and two bits from `2 ^ 54` on. -/
def mulThree (r : Dbl) : Dbl :=
  if 3 * r.m < 2 ^ 53 then { m := 3 * r.m, e := r.e }
  else if 3 * r.m < 2 ^ 54 then { m := roundTiesToEven (3 * r.m) 2, e := r.e + 1 }
  else { m := roundTiesToEven (3 * r.m) 4, e := r.e + 2 }

/-- Embedding of `Math.floor` on a non-negative double, as an integer. -/
def Dbl.floor (x : Dbl) : Int :=
  if 0 ≤ x.e then ((x.m * 2 ^ x.e.toNat : Nat) : Int)
  else ((x.m / 2 ^ (-x.e).toNat : Nat) : Int)

/-- The expression `Math.floor(Math.random() * 3) + 1` (lines 10 and 58), where
`r` is the value of `Math.random()`. -/
def drawWinningDoor (r : Dbl) : Int := (mulThree r).floor + 1

/-- Embedding of `resetGame()` (lines 54-59); `r` is the value of
`Math.random()`. All four state cells are overwritten. -/
def resetGame (_s : Game) (r : Dbl) : Game :=
  { selectedDoor := none
    gamePhase := Phase.selecting
    montyOpenedDoor := none
    winningDoor := drawWinningDoor r }

end MontyHall

namespace Tracker

/-! ## Project tracker: workflow steps and the auto-completion check -/

/-- A workflow step as the frontend holds it (`WorkflowUI.js`, `ProjectModel.js`).
`completedDate` is absent (`none`), `null` (`some none`) or an ISO string;
`completedBy` is absent (`none`) or a string. -/
structure WorkflowStep where
  step : String
  responsiblePerson : String
  dueDate : String
  completed : Bool
  completedDate : Option (Option String)
  completedBy : Option String
deriving DecidableEq, Repr

/-- The state `formData` of `EditModal` (lines 26-36); every field is a string. -/
structure FormData where
  projectName : String
  projectDescription : String
  clientName : String
  clientEmail : String
  deliveryDate : String
  status : String
  responsiblePerson : String
  notes : String
  currentStage : String
deriving DecidableEq, Repr

/-- The object `projectData` passed to `onSave`:
`{ ...formData, status: finalStatus, workflowSteps }`. -/
structure ProjectData where
  form : FormData
  workflowSteps : List WorkflowStep
deriving DecidableEq, Repr

/-- The array literal `['in-progress', 'on-hold', 'pending']`. -/
def promotableStatuses : List String := ["in-progress", "on-hold", "pending"]

/-- The value of `finalStatus` in `EditModal.handleSubmit` (lines 78-88). -/
def finalStatus (workflowSteps : List WorkflowStep) (status : String) : String :=
  if workflowSteps.length > 0 then
    let allCompleted := workflowSteps.all (fun step => step.completed == true)
    if allCompleted && promotableStatuses.contains status then "completed" else status
  else status

/-- Embedding of `EditModal.handleSubmit` (lines 68-99): `none` when the
required-field validation stops the save (the alert branch), otherwise the object
passed to `onSave`. -/
def handleSubmit (formData : FormData) (workflowSteps : List WorkflowStep) :
    Option ProjectData :=
  if formData.projectName = "" ∨ formData.clientName = "" ∨
      formData.clientEmail = "" ∨ formData.deliveryDate = "" then none
  else
    some
      { form := { formData with status := finalStatus workflowSteps formData.status }
        workflowSteps := workflowSteps }

/-! ### Backend auto-completion check (`projectController.js`, lines 145-154) -/

/-- The two properties of `req.body` that `updateProject` reads before the
database call; `none` is an absent property. -/
structure RequestBody where
  status : Option String
  workflowSteps : Option (List WorkflowStep)
deriving DecidableEq, Repr

/-- Embedding of lines 145-154 of `updateProject`: the request body as it is
handed to `findByIdAndUpdate`, after the auto-completion check. -/
def updateProject (body : RequestBody) : RequestBody :=
  match body.workflowSteps with
  | none => body
  | some workflowSteps =>
    if workflowSteps.length > 0 then
      let allCompleted := workflowSteps.all (fun step => step.completed == true)
      let included :=
        match body.status with
        | some status => promotableStatuses.contains status
        | none => false
      if allCompleted && included then { body with status := some "completed" } else body
    else body

/-! ### Workflow step handlers (`WorkflowUI.js`, lines 60-125) -/

/-- The state the handlers of `WorkflowUI` work on: its own `selectedSteps`
(an object from step index to boolean; a missing key reads as falsy, `false`
here) and the parent's `workflowSteps`, written through `setWorkflowSteps`. -/
structure WorkflowState where
  selectedSteps : Nat → Bool
  workflowSteps : List WorkflowStep

/-- The object literal of lines 75-80: the step appended when a box is checked.
It has no `completedDate` and no `completedBy` property. -/
def newStep (step : String) : WorkflowStep :=
  { step := step
    responsiblePerson := ""
    dueDate := ""
    completed := false
    completedDate := none
    completedBy := none }

/-- Embedding of `handleCheckboxChange(step, index)` (lines 60-82). -/
def handleCheckboxChange (st : WorkflowState) (step : String) (index : Nat) :
    WorkflowState :=
  let isChecked := !st.selectedSteps index
  { selectedSteps := fun i => if i = index then isChecked else st.selectedSteps i
    workflowSteps :=
      if !isChecked then st.workflowSteps.filter (fun s => s.step != step)
      else st.workflowSteps ++ [newStep step] }

/-- Embedding of `handlePersonChange(step, value)` (lines 89-94), as the function
from the previous step list to the new one. -/
def handlePersonChange (prev : List WorkflowStep) (step value : String) :
    List WorkflowStep :=
  prev.map (fun s => if s.step = step then { s with responsiblePerson := value } else s)

/-- Embedding of `handleDateChange(step, value)` (lines 101-106). -/
def handleDateChange (prev : List WorkflowStep) (step value : String) :
    List WorkflowStep :=
  prev.map (fun s => if s.step = step then { s with dueDate := value } else s)

/-- The object built for a matching step by `handleCompleteToggle` (lines
115-121); `now` is the value of `new Date().toISOString()`. -/
def toggledStep (now : String) (s : WorkflowStep) : WorkflowStep :=
  let isNowCompleted := !s.completed
  { s with
    completed := isNowCompleted
    completedDate := if isNowCompleted then some (some now) else some none
    completedBy := if isNowCompleted then some s.responsiblePerson else some "" }

/-- Embedding of `handleCompleteToggle(step)` (lines 112-125); `now` is the
current time as `new Date().toISOString()` returns it. -/
def handleCompleteToggle (now : String) (prev : List WorkflowStep) (step : String) :
    List WorkflowStep :=
  prev.map (fun s => if s.step = step then toggledStep now s else s)

/-- How a call `handlePersonChange(step, value)` ends: the body is one
`setWorkflowSteps` call, nothing is thrown and nothing is returned, so the call
completes normally (`Except.ok`) with the new step list. -/
def handlePersonChangeCall (prev : List WorkflowStep) (step value : String) :
    Except String (List WorkflowStep) :=
  Except.ok (handlePersonChange prev step value)

/-- How a call `handleDateChange(step, value)` ends; see `handlePersonChangeCall`. -/
def handleDateChangeCall (prev : List WorkflowStep) (step value : String) :
    Except String (List WorkflowStep) :=
  Except.ok (handleDateChange prev step value)

/-- Number of entries of the list whose name is `step`. -/
def countNamed (steps : List WorkflowStep) (step : String) : Nat :=
  steps.countP (fun s => s.step == step)

/-- The state of `EditModal`: `formData` and `workflowSteps` (lines 26-45). The
embedded `WorkflowUI` receives `setWorkflowSteps` only. -/
structure EditModalState where
  formData : FormData
  workflowSteps : List WorkflowStep
deriving DecidableEq, Repr

/-- A click on the "Done" box of `step` inside `EditModal`: `handleCompleteToggle`
runs with the modal's `setWorkflowSteps`. -/
def toggleInEditModal (now : String) (st : EditModalState) (step : String) :
    EditModalState :=
  { st with workflowSteps := handleCompleteToggle now st.workflowSteps step }

/-- Saving the form of `EditModal`: `handleSubmit` on the modal's state. -/
def submitEditModal (st : EditModalState) : Option ProjectData :=
  handleSubmit st.formData st.workflowSteps

/-- Example state of `EditModal`: required fields filled, status `in-progress`,
and the single step "Scanning" as `handleCheckboxChange` adds it. -/
def modalInProgress : EditModalState :=
  { formData :=
      { projectName := "MCP-1"
        projectDescription := ""
        clientName := "Acme"
        clientEmail := "a@acme.test"
        deliveryDate := "2024-06-01"
        status := "in-progress"
        responsiblePerson := ""
        notes := ""
        currentStage := "handheld" }
    workflowSteps := [newStep "Scanning"] }

/-! ### Project documents (`ProjectModel.js`) -/

/-- A project document: the paths of `projectSchema` (lines 52-127). Dates are
ISO strings. -/
structure Project where
  projectName : String
  projectDescription : String
  clientName : String
  clientEmail : String
  status : String
  responsiblePerson : String
  deliveryDate : String
  startDate : String
  workflowStage : String
  currentStage : String
  workflowSteps : List WorkflowStep
  notes : String
deriving DecidableEq, Repr

/-- Reading the property `path` of a document where an array is expected:
`workflowSteps` is the only array path of the schema; for every other name the
property is `undefined` or not an array, `none` here. -/
def Project.arrayProp (p : Project) (path : String) : Option (List WorkflowStep) :=
  if path = "workflowSteps" then some p.workflowSteps else none

/-- Writing back the array read by `Project.arrayProp`. -/
def Project.setArrayProp (p : Project) (path : String) (steps : List WorkflowStep) :
    Project :=
  if path = "workflowSteps" then { p with workflowSteps := steps } else p

/-- The effect of lines 200-205 on the array: `find` returns the first step named
`stepName`, which is then marked complete in place; no change when there is none. -/
def completeFirst (stepName person now : String) : List WorkflowStep → List WorkflowStep
  | [] => []
  | s :: rest =>
    if s.step = stepName then
      { s with completed := true, completedDate := some (some now), completedBy := some person }
        :: rest
    else s :: completeFirst stepName person now rest

/-- The body of `completeWorkflowStep` with the property name it reads as a
parameter: calling `.find` on a property that is not an array throws a
`TypeError`; otherwise the document with the updated array is saved. -/
def completeWorkflowStepAt (path : String) (p : Project) (stepName person now : String) :
    Except String Project :=
  match p.arrayProp path with
  | none => Except.error "TypeError"
  | some steps => Except.ok (p.setArrayProp path (completeFirst stepName person now steps))

/-- Embedding of `projectSchema.methods.completeWorkflowStep` (lines 199-207):
the method reads `this.workflow`; `now` is the value of `new Date()`. -/
def completeWorkflowStep (p : Project) (stepName person now : String) :
    Except String Project :=
  completeWorkflowStepAt "workflow" p stepName person now

/-- Example project document: status `in-progress` and the single workflow step
"Scanning", not completed, with the schema defaults for the other step fields. -/
def projectScanning : Project :=
  { projectName := "MCP-1"
    projectDescription := ""
    clientName := "Acme"
    clientEmail := "a@acme.test"
    status := "in-progress"
    responsiblePerson := ""
    deliveryDate := "2024-06-01"
    startDate := "2024-05-01"
    workflowStage := "default"
    currentStage := "handheld"
    workflowSteps :=
      [{ step := "Scanning", responsiblePerson := "", dueDate := "", completed := false,
         completedDate := some none, completedBy := some "" }]
    notes := "" }

end Tracker

namespace Cypher

/-! ## Caesar cipher script (`cypher.js`)

A JavaScript string is the list of its UTF-16 code units (numbers below
`65536`). The script reads `userInput` with `prompt`, in a loop until the answer
is not the empty string, and shows `result` with `alert`; the embedding starts
from `userInput`. -/

/-- The array `userInput.split('')`: one string of a single code unit for each
code unit of the input. -/
def split (userInput : List Nat) : List (List Nat) :=
  userInput.map (fun unit => [unit])

/-- The call `s.charCodeAt(0)`; `0` stands for `NaN` on the empty string, which
`split` never produces. -/
def charCodeAt0 (s : List Nat) : Nat := s.headD 0

/-- Embedding of `lowerCaseLetters(userInput)` (lines 19-26): the array of the
character codes of the input. -/
def lowerCaseLetters (userInput : List Nat) : List Nat :=
  (split userInput).map charCodeAt0

/-- The number that `!c` becomes in a comparison such as `!c >= 97` (lines
69-72): `!` binds tighter than `>=`, `!c` is `true` only for `c = 0`, and `true`
and `false` compare as `1` and `0`. -/
def notAsNumber (c : Nat) : Nat := if c = 0 then 1 else 0

/-- The value of `shiftedAscii` at the end of one round of the loop (lines
45-75) for the character code `c`. The subtraction `c + 15 - 26` is only
evaluated for `c ≥ 65`, where it does not go below zero. -/
def shiftedAscii (c : Nat) : Nat :=
  if c ≥ 65 ∧ c ≤ 90 then
    if c + 15 ≥ 65 ∧ c + 15 ≤ 90 then c + 15
    else if c + 15 - 26 ≥ 65 ∧ c + 15 - 26 ≤ 90 then c + 15 - 26
    else c
  else if c ≥ 97 ∧ c ≤ 122 then
    if c + 15 ≥ 97 ∧ c + 15 ≤ 122 then c + 15
    else if c + 15 - 26 ≥ 97 ∧ c + 15 - 26 ≤ 122 then c + 15 - 26
    else c
  else if notAsNumber c ≥ 97 ∧ notAsNumber c ≤ 122 ∧
      notAsNumber c ≥ 65 ∧ notAsNumber c ≤ 90 then c
  else c

/-- The call `String.fromCharCode(n)`: the string of the single code unit
`n mod 65536`. -/
def fromCharCode (n : Nat) : List Nat := [n % 65536]

/-- The array `convertedLetters` after the loop (lines 41-78). -/
def convertedLetters (asciiValues : List Nat) : List (List Nat) :=
  asciiValues.map (fun c => fromCharCode (shiftedAscii c))

/-- The string `result` of the script (lines 40-80) for the input `userInput`. -/
def cipher (userInput : List Nat) : List Nat :=
  (convertedLetters (lowerCaseLetters userInput)).flatten

/-- The shift the header comment describes: 15 places forward with wrap-around
inside the upper-case and inside the lower-case letters, every other code
unchanged. -/
def shift15 (c : Nat) : Nat :=
  if 65 ≤ c ∧ c ≤ 90 then 65 + (c - 65 + 15) % 26
  else if 97 ≤ c ∧ c ≤ 122 then 97 + (c - 97 + 15) % 26
  else c

/-- The code units of a Lean string whose characters are all below `65536`. -/
def ofString (s : String) : List Nat := s.toList.map Char.toNat

end Cypher

namespace Hangman

/-! ## Hangman (`hangman/src/App.js`)

Words are lists of characters (`word.split('')`), a guessed letter is one
character (the keyboard passes the letters `a` to `z`), so that
`word.includes(letter)` is membership. -/

/-- The three values of the string state `gameStatus`. -/
inductive GameStatus where
  | playing
  | won
  | lost
deriving DecidableEq, Repr

/-- The four `useState` cells of the `App` component (lines 15-25). -/
structure Game where
  word : List Char
  guessedLetters : List Char
  wrongGuesses : Nat
  gameStatus : GameStatus
deriving DecidableEq, Repr

/-- The constant of line 28. -/
def MAX_WRONG_GUESSES : Nat := 5

/-- The array `[...new Set(word.split(''))]` (line 78): the letters of the word
without repetition, in the order of their first occurrence. -/
def wordLetters : List Char → List Char
  | [] => []
  | c :: rest => c :: (wordLetters rest).filter (fun d => d != c)

/-- Embedding of `checkWin(guessedLetters)` (lines 76-86) on the state `s`. -/
def checkWin (s : Game) (guessedLetters : List Char) : Game :=
  let hasWon := (wordLetters s.word).all (fun letter => guessedLetters.contains letter)
  if hasWon then { s with gameStatus := GameStatus.won } else s

/-- Embedding of `handleGuess(letter)` (lines 48-73). -/
def handleGuess (s : Game) (letter : Char) : Game :=
  if s.gameStatus ≠ GameStatus.playing then s
  else if s.guessedLetters.contains letter then s
  else
    let newGuessedLetters := s.guessedLetters ++ [letter]
    let s1 := { s with guessedLetters := newGuessedLetters }
    if !s.word.contains letter then
      let newWrongGuesses := s.wrongGuesses + 1
      let s2 := { s1 with wrongGuesses := newWrongGuesses }
      if newWrongGuesses ≥ MAX_WRONG_GUESSES then { s2 with gameStatus := GameStatus.lost }
      else s2
    else checkWin s1 newGuessedLetters

/-- The state `startNewGame` sets (lines 36-44); `randomWord` is the word drawn
from `wordList`. The initial `useState` values are this state for the empty
word. -/
def startNewGame (randomWord : List Char) : Game :=
  { word := randomWord
    guessedLetters := []
    wrongGuesses := 0
    gameStatus := GameStatus.playing }

/-- A sequence of guesses applied from left to right. -/
def play (s : Game) (guesses : List Char) : Game :=
  guesses.foldl handleGuess s

/-- The number of letters of `guessed` that do not occur in `word`: the wrong
guesses among the guessed letters. -/
def wrongLetters (word guessed : List Char) : Nat :=
  guessed.countP (fun c => !word.contains c)

end Hangman

namespace Temperature

/-! ## Temperature converter script (`temperature.js`)

The script talks to the user through `prompt` and `alert`. Its run is the list
of these events; the answer to the `n`-th prompt is `answer n`. The numeric
text of the result alerts (`toFixed(2)` of a double) is not part of the
embedding: such an alert is recorded with the two units only. -/

/-- The method `toUpperCase()` on the letters `a` to `z`; other characters are
kept. It agrees with JavaScript on whether the result is `C`, `F` or `K`, the
only use the script makes of it. -/
def toUpperCase (s : String) : String := String.mk (s.toList.map Char.toUpper)

/-- What the user sees, in order. -/
inductive Event where
  | promptSource
  | promptAmount
  | promptTarget
  | alert (message : String)
  | alertConverted (source target : String)
  | alertSameUnit (unit : String)
deriving DecidableEq, Repr

/-- The alert text of lines 16 and 35. -/
def unitMessage : String := "Please use the input value as C, F or K. "

/-- The alert text of line 26. -/
def amountMessage : String := "Please input the temperature value to convert. "

/-- The alert text of line 77. -/
def noDataMessage : String := "Please provide the data to convert the temperature. "

/-- The values set by one question: the events shown, the value of the variable,
and the number of prompts answered so far. -/
structure Asked where
  events : List Event
  value : String
  next : Nat
deriving DecidableEq, Repr

/-- Embedding of lines 11-22: the source-unit question, asked once more after
the alert when the answer is not `C`, `F` or `K`. -/
def askSource (answer : Nat → String) : Asked :=
  let convertTemp := toUpperCase (answer 0)
  if convertTemp ≠ "C" ∧ convertTemp ≠ "F" ∧ convertTemp ≠ "K" then
    { events := [Event.promptSource, Event.alert unitMessage, Event.promptSource]
      value := toUpperCase (answer 1)
      next := 2 }
  else { events := [Event.promptSource], value := convertTemp, next := 1 }

/-- Embedding of lines 24-27: the temperature question; `isNumber text` tells
whether `Number(text)` is not `NaN`. The value kept is the text typed. -/
def askAmount (isNumber : String → Bool) (answer : Nat → String) (n : Nat) : Asked :=
  if !isNumber (answer n) then
    { events := [Event.promptAmount, Event.alert amountMessage, Event.promptAmount]
      value := answer (n + 1)
      next := n + 2 }
  else { events := [Event.promptAmount], value := answer n, next := n + 1 }

/-- Embedding of lines 30-39: the target-unit question. The condition of line 34
tests `convertTemp`, the source unit. -/
def askTarget (answer : Nat → String) (convertTemp : String) (n : Nat) : Asked :=
  let convertTempTo := toUpperCase (answer n)
  if convertTemp ≠ "C" ∧ convertTemp ≠ "F" ∧ convertTemp ≠ "K" then
    { events := [Event.promptTarget, Event.alert unitMessage, Event.promptTarget]
      value := toUpperCase (answer (n + 1))
      next := n + 2 }
  else { events := [Event.promptTarget], value := convertTempTo, next := n + 1 }

/-- Embedding of the `switch` of lines 42-79: the alert it shows. -/
def convert (convertTemp convertTempTo : String) : Event :=
  if convertTemp = "C" then
    if convertTempTo = "F" then Event.alertConverted "C" "F"
    else if convertTempTo = "K" then Event.alertConverted "C" "K"
    else Event.alertSameUnit "C"
  else if convertTemp = "F" then
    if convertTempTo = "C" then Event.alertConverted "F" "C"
    else if convertTempTo = "K" then Event.alertConverted "F" "K"
    else Event.alertSameUnit "F"
  else if convertTemp = "K" then
    if convertTempTo = "C" then Event.alertConverted "K" "C"
    else if convertTempTo = "F" then Event.alertConverted "K" "F"
    else Event.alertSameUnit "K"
  else Event.alert noDataMessage

/-- The whole run of the script. -/
def script (isNumber : String → Bool) (answer : Nat → String) : List Event :=
  let source := askSource answer
  let amount := askAmount isNumber answer source.next
  let target := askTarget answer source.value amount.next
  source.events ++ amount.events ++ target.events ++ [convert source.value target.value]

/-- The answers `c`, `20`, `x` to the first three prompts (every later prompt
is answered `k`). -/
def answersCelsiusToX : Nat → String
  | 0 => "c"
  | 1 => "20"
  | 2 => "x"
  | _ => "k"

end Temperature

namespace CoolTech

/-! ## Credential listing (`coolTech/Backend/controllers/credential.controller.js`)

The collection is the list of stored credentials; `Credential.find(filter)` is
a filter of that list. Identifiers are strings. `populate` only adds details of
the referenced documents and is not part of the embedding. -/

/-- A stored credential: the fields the listing endpoints look at. -/
structure Credential where
  id : String
  serviceName : String
  division : String
  active : Bool
deriving DecidableEq, Repr

/-- The object `req.user` set by `verifyToken`: the fields the controllers read.
`division` is optional in the user schema. -/
structure User where
  id : String
  role : String
  division : Option String
deriving DecidableEq, Repr

/-- A query filter: `active` is always present; `division` is absent (`none`) or
a required value, which is `none` for a user without division. -/
structure Filter where
  active : Bool
  division : Option (Option String)
deriving DecidableEq, Repr

/-- Whether a credential matches a filter. -/
def Filter.matches (f : Filter) (c : Credential) : Bool :=
  (c.active == f.active) &&
    (match f.division with
     | none => true
     | some d => d == some c.division)

/-- The call `Credential.find(filter)`. -/
def find (filter : Filter) (db : List Credential) : List Credential :=
  db.filter filter.matches

/-- Embedding of `getAllCredentials` (lines 56-77): the `data` of the response. -/
def getAllCredentials (user : User) (db : List Credential) : List Credential :=
  let filter : Filter := { active := true, division := none }
  let filter := if user.role ≠ "admin" then { filter with division := some user.division }
    else filter
  find filter db

/-- Embedding of `getCredentialsByDivision` (lines 90-107): the `data` of the
response for the route parameter `divisionId`. The handler does not read
`req.user`. -/
def getCredentialsByDivision (_user : User) (divisionId : String) (db : List Credential) :
    List Credential :=
  find { active := true, division := some (some divisionId) } db

/-- Example collection: one active credential in division `d1`, one active and
one inactive credential in division `d2`. -/
def exampleDb : List Credential :=
  [{ id := "c1", serviceName := "mail", division := "d1", active := true },
   { id := "c2", serviceName := "bank", division := "d2", active := true },
   { id := "c3", serviceName := "wiki", division := "d2", active := false }]

/-- Example user: role `normal`, division `d1`. -/
def normalUser : User := { id := "u1", role := "normal", division := some "d1" }

end CoolTech

namespace Tracker

/-! ### Consistency of the selection (`WorkflowUI.js`, lines 27-40 and 139-141) -/

/-- No two steps of the list have the same name. -/
def uniqueNames (steps : List WorkflowStep) : Prop :=
  (steps.map (fun s => s.step)).Nodup

/-- The selection agrees with the step list, as the effect of lines 27-40 sets it
up: for every entry `stages[i]` of the catalog, `selectedSteps[i]` is true
exactly when a step with that name is in the list. -/
def selectionMatches (stages : List String) (st : WorkflowState) : Prop :=
  ∀ (i : Nat) (name : String), stages[i]? = some name →
    (st.selectedSteps i = true ↔ ∃ s ∈ st.workflowSteps, s.step = name)

end Tracker

namespace MontyHall

/-! ## Theorems -/

/-- C1: for winningDoor and door in {1,2,3}, after `handleDoorClick door` in
phase `selecting` the host's door is set, is one of the three doors, and differs
both from `winningDoor` and from the resulting `selectedDoor`. -/
theorem host_door_avoids_prize_and_pick (s : Game) (door : Int)
    (hphase : s.gamePhase = Phase.selecting)
    (hw : isDoor s.winningDoor) (hd : isDoor door) :
    ∃ m, (handleDoorClick s door).montyOpenedDoor = some m ∧ isDoor m ∧
      m ≠ (handleDoorClick s door).winningDoor ∧
      some m ≠ (handleDoorClick s door).selectedDoor := by
  obtain ⟨sel, w, ph, mo⟩ := s
  simp only at hphase hw
  subst hphase
  rcases hw with rfl | rfl | rfl <;> rcases hd with rfl | rfl | rfl <;>
    simp [handleDoorClick, getMontyDoor, availableDoors, allDoors, isDoor]

/-- Witness of C1 at winningDoor 2, door 1. -/
theorem host_door_avoids_prize_and_pick_witness :
    ∃ m, (handleDoorClick (freshRound 2) 1).montyOpenedDoor = some m ∧ isDoor m ∧
      m ≠ (handleDoorClick (freshRound 2) 1).winningDoor ∧
      some m ≠ (handleDoorClick (freshRound 2) 1).selectedDoor :=
  host_door_avoids_prize_and_pick (freshRound 2) 1 rfl (by decide) (by decide)

/-- Invariant of a round with prize `w`: the prize does not move, and once the
host has acted his door is a door other than the prize and, until the final
click, other than the player's pick. -/
theorem round_invariant_step (w : Int) (hw : isDoor w) (s : Game) (a : Action)
    (ha : a.fromUI) (hs : s.winningDoor = w)
    (hinv : hostActed s → ∃ m, s.montyOpenedDoor = some m ∧ isDoor m ∧ m ≠ w ∧
      (s.gamePhase ≠ Phase.finished → some m ≠ s.selectedDoor)) :
    (step s a).winningDoor = w ∧
    (hostActed (step s a) → ∃ m, (step s a).montyOpenedDoor = some m ∧ isDoor m ∧
      m ≠ w ∧ ((step s a).gamePhase ≠ Phase.finished →
        some m ≠ (step s a).selectedDoor)) := by
  obtain ⟨sel, w0, ph, mo⟩ := s
  simp only at hs
  subst hs
  cases a with
  | click d =>
    cases ph with
    | selecting =>
      refine ⟨rfl, fun _ => ?_⟩
      have hd : isDoor d := ha
      rcases hw with rfl | rfl | rfl <;> rcases hd with rfl | rfl | rfl <;>
        simp [step, handleDoorClick, getMontyDoor, availableDoors, allDoors, isDoor]
    | revealing => exact ⟨rfl, hinv⟩
    | final =>
      refine ⟨rfl, fun _ => ?_⟩
      obtain ⟨m, hm, hmd, hmw, -⟩ := hinv (by simp [hostActed])
      exact ⟨m, hm, hmd, hmw, fun h => absurd rfl h⟩
    | finished => exact ⟨rfl, hinv⟩
  | makeFinal =>
    cases ph with
    | selecting => exact ⟨rfl, hinv⟩
    | revealing =>
      refine ⟨rfl, fun _ => ?_⟩
      obtain ⟨m, hm, hmd, hmw, hsel⟩ := hinv (by simp [hostActed])
      exact ⟨m, hm, hmd, hmw, fun _ => hsel (by simp)⟩
    | final => exact ⟨rfl, hinv⟩
    | finished => exact ⟨rfl, hinv⟩

/-- The invariant of `round_invariant_step` along a whole sequence of actions. -/
theorem round_invariant_run (w : Int) (hw : isDoor w) (actions : List Action) :
    ∀ s : Game, (∀ a ∈ actions, a.fromUI) → s.winningDoor = w →
      (hostActed s → ∃ m, s.montyOpenedDoor = some m ∧ isDoor m ∧ m ≠ w ∧
        (s.gamePhase ≠ Phase.finished → some m ≠ s.selectedDoor)) →
      (run s actions).winningDoor = w ∧
      (hostActed (run s actions) → ∃ m, (run s actions).montyOpenedDoor = some m ∧
        isDoor m ∧ m ≠ w ∧ ((run s actions).gamePhase ≠ Phase.finished →
          some m ≠ (run s actions).selectedDoor)) := by
  induction actions with
  | nil => intro s _ hs hinv; exact ⟨hs, hinv⟩
  | cons a rest ih =>
    intro s hall hs hinv
    have h1 := round_invariant_step w hw s a (hall a (List.mem_cons_self _ _)) hs hinv
    exact ih (step s a) (fun b hb => hall b (List.mem_cons_of_mem _ hb)) h1.1 h1.2

/-- C2, as stated, fails: with the prize behind door 2 the clicks
door 1, "Make Final Choice!", door 3 reach phase `finished` with
`selectedDoor = montyOpenedDoor = 3`. -/
theorem final_click_may_pick_opened_door :
    (∀ a ∈ [Action.click 1, Action.makeFinal, Action.click 3], a.fromUI) ∧
    hostActed (run (freshRound 2) [Action.click 1, Action.makeFinal, Action.click 3]) ∧
    (run (freshRound 2) [Action.click 1, Action.makeFinal, Action.click 3]).gamePhase
      = Phase.finished ∧
    (run (freshRound 2) [Action.click 1, Action.makeFinal, Action.click 3]).montyOpenedDoor
      = some 3 ∧
    (run (freshRound 2) [Action.click 1, Action.makeFinal, Action.click 3]).selectedDoor
      = some 3 := by
  refine ⟨?_, by decide, by decide, by decide, by decide⟩
  intro a ha
  simp only [List.mem_cons, List.mem_singleton, List.not_mem_nil, or_false] at ha
  rcases ha with rfl | rfl | rfl <;> simp [Action.fromUI, isDoor]

/-- C2 (amended): in every state reachable from a fresh round (prize behind one
of the three doors) by door clicks and "Make Final Choice!" presses, once the
host has acted `montyOpenedDoor` is a door different from `winningDoor`, and it
is different from `selectedDoor` as long as the phase is `revealing` or `final`. -/
theorem host_door_invariant (w : Int) (actions : List Action)
    (hw : isDoor w) (hall : ∀ a ∈ actions, a.fromUI)
    (hacted : hostActed (run (freshRound w) actions)) :
    ∃ m, (run (freshRound w) actions).montyOpenedDoor = some m ∧ isDoor m ∧
      m ≠ (run (freshRound w) actions).winningDoor ∧
      ((run (freshRound w) actions).gamePhase ≠ Phase.finished →
        some m ≠ (run (freshRound w) actions).selectedDoor) := by
  have h := round_invariant_run w hw actions (freshRound w) hall rfl
    (fun h => absurd rfl h)
  obtain ⟨m, hm, hmd, hmw, hsel⟩ := h.2 hacted
  exact ⟨m, hm, hmd, by rw [h.1]; exact hmw, hsel⟩

/-- Witness of the amended C2 on the round of the counterexample, stopped before
the final click. -/
theorem host_door_invariant_witness :
    ∃ m, (run (freshRound 2) [Action.click 1, Action.makeFinal]).montyOpenedDoor = some m ∧
      isDoor m ∧
      m ≠ (run (freshRound 2) [Action.click 1, Action.makeFinal]).winningDoor ∧
      ((run (freshRound 2) [Action.click 1, Action.makeFinal]).gamePhase ≠ Phase.finished →
        some m ≠ (run (freshRound 2) [Action.click 1, Action.makeFinal]).selectedDoor) :=
  host_door_invariant 2 [Action.click 1, Action.makeFinal] (by decide)
    (by
      intro a ha
      simp only [List.mem_cons, List.mem_singleton, List.not_mem_nil, or_false] at ha
      rcases ha with rfl | rfl <;> simp [Action.fromUI, isDoor])
    (by decide)

/-- C3: for winningDoor and initial pick in {1,2,3}, in phase `final` there is
exactly one door that is neither the initial pick nor `montyOpenedDoor`; the
player who clicks it wins iff the initial pick differs from winningDoor, the
player who clicks the initial pick again wins iff it equals winningDoor; over the
nine (winningDoor, pick) pairs switching wins 6 times and staying 3 times. -/
theorem switch_wins_two_thirds (w p : Int) (hw : isDoor w) (hp : isDoor p) :
    (beforeFinalChoice w p).gamePhase = Phase.final ∧
    (∃ d, isDoor d ∧ d ≠ p ∧ some d ≠ (beforeFinalChoice w p).montyOpenedDoor ∧
      switchDoor (beforeFinalChoice w p) = some d) ∧
    (∀ d, isDoor d → d ≠ p → some d ≠ (beforeFinalChoice w p).montyOpenedDoor →
      result (handleDoorClick (beforeFinalChoice w p) d) = some (decide (p ≠ w))) ∧
    result (handleDoorClick (beforeFinalChoice w p) p) = some (decide (p = w)) ∧
    (playSwitch w p).bind result = some (decide (p ≠ w)) ∧
    result (playStay w p) = some (decide (p = w)) ∧
    allRounds.length = 9 ∧ switchWins = 6 ∧ stayWins = 3 := by
  refine ⟨?_, ?_, ?_, ?_, ?_, ?_, by decide, by decide, by decide⟩
  · rcases hw with rfl | rfl | rfl <;> rcases hp with rfl | rfl | rfl <;> decide
  · rcases hw with rfl | rfl | rfl <;> rcases hp with rfl | rfl | rfl <;>
      first
        | exact ⟨1, by decide⟩
        | exact ⟨2, by decide⟩
        | exact ⟨3, by decide⟩
  · intro d hd
    rcases hw with rfl | rfl | rfl <;> rcases hp with rfl | rfl | rfl <;>
      rcases hd with rfl | rfl | rfl <;> decide
  · rcases hw with rfl | rfl | rfl <;> rcases hp with rfl | rfl | rfl <;> decide
  · rcases hw with rfl | rfl | rfl <;> rcases hp with rfl | rfl | rfl <;> decide
  · rcases hw with rfl | rfl | rfl <;> rcases hp with rfl | rfl | rfl <;> decide

/-- Witness of C3 at winningDoor 2, initial pick 1 (the host opens door 3,
switching to door 2 wins, staying on door 1 loses). -/
theorem switch_wins_two_thirds_witness :
    (beforeFinalChoice 2 1).gamePhase = Phase.final ∧
    (∃ d, isDoor d ∧ d ≠ 1 ∧ some d ≠ (beforeFinalChoice 2 1).montyOpenedDoor ∧
      switchDoor (beforeFinalChoice 2 1) = some d) ∧
    (∀ d, isDoor d → d ≠ 1 → some d ≠ (beforeFinalChoice 2 1).montyOpenedDoor →
      result (handleDoorClick (beforeFinalChoice 2 1) d) = some (decide ((1 : Int) ≠ 2))) ∧
    result (handleDoorClick (beforeFinalChoice 2 1) 1) = some (decide ((1 : Int) = 2)) ∧
    (playSwitch 2 1).bind result = some (decide ((1 : Int) ≠ 2)) ∧
    result (playStay 2 1) = some (decide ((1 : Int) = 2)) ∧
    allRounds.length = 9 ∧ switchWins = 6 ∧ stayWins = 3 :=
  switch_wins_two_thirds 2 1 (by decide) (by decide)

/-- C4: in phase `revealing` or `finished` (any phase other than `selecting` and
`final`) `handleDoorClick door` returns the state unchanged, for every door. -/
theorem click_outside_selecting_and_final_is_noop (s : Game) (door : Int)
    (h1 : s.gamePhase ≠ Phase.selecting) (h2 : s.gamePhase ≠ Phase.final) :
    (s.gamePhase = Phase.revealing ∨ s.gamePhase = Phase.finished) ∧
    handleDoorClick s door = s ∧
    (handleDoorClick s door).selectedDoor = s.selectedDoor ∧
    (handleDoorClick s door).montyOpenedDoor = s.montyOpenedDoor ∧
    (handleDoorClick s door).winningDoor = s.winningDoor ∧
    (handleDoorClick s door).gamePhase = s.gamePhase := by
  have h : handleDoorClick s door = s := by simp [handleDoorClick, h1, h2]
  refine ⟨?_, h, by rw [h], by rw [h], by rw [h], by rw [h]⟩
  cases hph : s.gamePhase <;> simp_all

/-- Witness of C4: a click on door 2 in a finished round. -/
theorem click_outside_selecting_and_final_is_noop_witness :
    ((playStay 2 1).gamePhase = Phase.revealing ∨
      (playStay 2 1).gamePhase = Phase.finished) ∧
    handleDoorClick (playStay 2 1) 2 = playStay 2 1 ∧
    (handleDoorClick (playStay 2 1) 2).selectedDoor = (playStay 2 1).selectedDoor ∧
    (handleDoorClick (playStay 2 1) 2).montyOpenedDoor = (playStay 2 1).montyOpenedDoor ∧
    (handleDoorClick (playStay 2 1) 2).winningDoor = (playStay 2 1).winningDoor ∧
    (handleDoorClick (playStay 2 1) 2).gamePhase = (playStay 2 1).gamePhase :=
  click_outside_selecting_and_final_is_noop (playStay 2 1) 2 (by decide) (by decide)

/-- C5, as stated, fails: with the prize behind door 1, a click with door
number 4 in phase `selecting` changes `selectedDoor`, `gamePhase` and
`montyOpenedDoor`. -/
theorem invalid_door_click_changes_state :
    ¬ isDoor 4 ∧ (freshRound 1).gamePhase = Phase.selecting ∧
    handleDoorClick (freshRound 1) 4 =
      { selectedDoor := some 4, winningDoor := 1, gamePhase := Phase.revealing,
        montyOpenedDoor := some 2 } ∧
    (handleDoorClick (freshRound 1) 4).selectedDoor ≠ (freshRound 1).selectedDoor ∧
    (handleDoorClick (freshRound 1) 4).gamePhase ≠ (freshRound 1).gamePhase ∧
    (handleDoorClick (freshRound 1) 4).montyOpenedDoor ≠ (freshRound 1).montyOpenedDoor := by
  decide

/-- C5 (amended): `handleDoorClick` does not validate the door number. For every
integer door outside {1,2,3}, a click in phase `selecting` sets `selectedDoor` to
that number, moves to phase `revealing` and sets `montyOpenedDoor` to the first
door of 1, 2, 3 that is not `winningDoor`; `winningDoor` is kept. -/
theorem invalid_door_click_is_accepted (s : Game) (door : Int)
    (hphase : s.gamePhase = Phase.selecting) (hd : ¬ isDoor door) :
    (handleDoorClick s door).selectedDoor = some door ∧
    (handleDoorClick s door).gamePhase = Phase.revealing ∧
    (handleDoorClick s door).montyOpenedDoor =
      some (if s.winningDoor = 1 then 2 else 1) ∧
    (handleDoorClick s door).winningDoor = s.winningDoor := by
  obtain ⟨sel, w, ph, mo⟩ := s
  simp only at hphase
  subst hphase
  simp only [isDoor, not_or] at hd
  obtain ⟨h1, h2, h3⟩ := hd
  have e1 : ((1 : Int) != door) = true := by simpa [bne_iff_ne] using Ne.symm h1
  have e2 : ((2 : Int) != door) = true := by simpa [bne_iff_ne] using Ne.symm h2
  by_cases hw : w = 1
  · subst hw
    simp [handleDoorClick, getMontyDoor, availableDoors, allDoors, List.filter_cons, e2]
  · have e3 : ((1 : Int) != w) = true := by simpa [bne_iff_ne] using Ne.symm hw
    simp [handleDoorClick, getMontyDoor, availableDoors, allDoors, List.filter_cons, e1, e3, hw]

/-- Witness of the amended C5 at door number 4 with the prize behind door 1. -/
theorem invalid_door_click_is_accepted_witness :
    (handleDoorClick (freshRound 1) 4).selectedDoor = some 4 ∧
    (handleDoorClick (freshRound 1) 4).gamePhase = Phase.revealing ∧
    (handleDoorClick (freshRound 1) 4).montyOpenedDoor =
      some (if (freshRound 1).winningDoor = 1 then 2 else 1) ∧
    (handleDoorClick (freshRound 1) 4).winningDoor = (freshRound 1).winningDoor :=
  invalid_door_click_is_accepted (freshRound 1) 4 rfl (by decide)

/-- C6: for winningDoor and door in {1,2,3} with door different from winningDoor,
`getMontyDoor door` is `6 - door - winningDoor`, which is the only door that is
neither `door` nor `winningDoor`; for winningDoor 2 and door 1 it is 3. -/
theorem getMontyDoor_third_door (w door : Int) (hw : isDoor w) (hd : isDoor door)
    (hne : door ≠ w) :
    getMontyDoor w door = some (6 - door - w) ∧
    isDoor (6 - door - w) ∧ 6 - door - w ≠ door ∧ 6 - door - w ≠ w ∧
    (∀ m, isDoor m → m ≠ door → m ≠ w → m = 6 - door - w) ∧
    getMontyDoor 2 1 = some 3 := by
  refine ⟨?_, ?_, ?_, ?_, ?_, by decide⟩
  · rcases hw with rfl | rfl | rfl <;> rcases hd with rfl | rfl | rfl <;>
      first | exact absurd rfl hne | decide
  · rcases hw with rfl | rfl | rfl <;> rcases hd with rfl | rfl | rfl <;>
      first | exact absurd rfl hne | decide
  · rcases hw with rfl | rfl | rfl <;> rcases hd with rfl | rfl | rfl <;>
      first | exact absurd rfl hne | decide
  · rcases hw with rfl | rfl | rfl <;> rcases hd with rfl | rfl | rfl <;>
      first | exact absurd rfl hne | decide
  · intro m hm
    rcases hw with rfl | rfl | rfl <;> rcases hd with rfl | rfl | rfl <;>
      rcases hm with rfl | rfl | rfl <;> simp at hne ⊢

/-- Witness of C6 at winningDoor 2, door 1. -/
theorem getMontyDoor_third_door_witness :
    getMontyDoor 2 1 = some (6 - 1 - 2) ∧
    isDoor (6 - 1 - 2) ∧ (6 : Int) - 1 - 2 ≠ 1 ∧ (6 : Int) - 1 - 2 ≠ 2 ∧
    (∀ m, isDoor m → m ≠ 1 → m ≠ 2 → m = 6 - 1 - 2) ∧
    getMontyDoor 2 1 = some 3 :=
  getMontyDoor_third_door 2 1 (by decide) (by decide) (by decide)

/-- C7: for every door in {1,2,3}, `handleDoorClick door` in phase `final` sets
`selectedDoor` to `door` and `gamePhase` to `finished`, whatever the earlier pick
was, and leaves `montyOpenedDoor` (and `winningDoor`) unchanged. -/
theorem final_click_selects_and_finishes (s : Game) (door : Int)
    (hphase : s.gamePhase = Phase.final) (hd : isDoor door) :
    handleDoorClick s door =
      { selectedDoor := some door, winningDoor := s.winningDoor,
        gamePhase := Phase.finished, montyOpenedDoor := s.montyOpenedDoor } := by
  have _ := hd
  simp [handleDoorClick, hphase]

/-- Witness of C7: after pick 1 with the prize behind door 2, both the final
click on door 2 (switch) and on door 1 (stay) finish the round. -/
theorem final_click_selects_and_finishes_witness :
    handleDoorClick (beforeFinalChoice 2 1) 2 =
      { selectedDoor := some 2, winningDoor := (beforeFinalChoice 2 1).winningDoor,
        gamePhase := Phase.finished,
        montyOpenedDoor := (beforeFinalChoice 2 1).montyOpenedDoor } ∧
    handleDoorClick (beforeFinalChoice 2 1) 1 =
      { selectedDoor := some 1, winningDoor := (beforeFinalChoice 2 1).winningDoor,
        gamePhase := Phase.finished,
        montyOpenedDoor := (beforeFinalChoice 2 1).montyOpenedDoor } :=
  ⟨final_click_selects_and_finishes (beforeFinalChoice 2 1) 2 (by decide) (by decide),
    final_click_selects_and_finishes (beforeFinalChoice 2 1) 1 (by decide) (by decide)⟩

/-- Rounding a quotient by 2 moves the numerator by at most 1. -/
theorem roundTiesToEven_two (n : Nat) :
    2 * roundTiesToEven n 2 ≤ n + 1 ∧ n ≤ 2 * roundTiesToEven n 2 + 1 := by
  unfold roundTiesToEven
  split_ifs <;> omega

/-- Rounding a quotient by 4 moves the numerator by at most 2. -/
theorem roundTiesToEven_four (n : Nat) :
    4 * roundTiesToEven n 4 ≤ n + 2 ∧ n ≤ 4 * roundTiesToEven n 4 + 2 := by
  unfold roundTiesToEven
  split_ifs <;> omega

/-- The function `Dbl.floor` is the mathematical floor of the denoted rational. -/
theorem Dbl.floor_eq (x : Dbl) : x.floor = ⌊x.toRat⌋ := by
  unfold Dbl.floor Dbl.toRat
  split_ifs with h
  · obtain ⟨k, hk⟩ := Int.eq_ofNat_of_zero_le h
    rw [hk]
    simp only [Int.toNat_ofNat, zpow_natCast]
    have : ((x.m : ℚ) * 2 ^ k) = (((x.m * 2 ^ k : Nat) : ℤ) : ℚ) := by push_cast; ring
    rw [this, Int.floor_intCast]
  · obtain ⟨k, hk⟩ := Int.eq_ofNat_of_zero_le (show 0 ≤ -x.e by omega)
    have he : x.e = -(k : ℤ) := by omega
    rw [he]
    simp only [neg_neg, Int.toNat_ofNat, zpow_neg, zpow_natCast]
    have : ((x.m : ℚ) * (2 ^ k)⁻¹) = ((x.m : ℚ) / ((2 ^ k : Nat) : ℚ)) := by
      push_cast; rw [div_eq_mul_inv]
    rw [this, Rat.floor_natCast_div_natCast]
    simp


/-- The value of a double with exponent `-k` is `M / 2 ^ k`. -/
theorem Dbl.toRat_of_neg (M k : Nat) (e : Int) (he : e = -(k : ℤ)) :
    Dbl.toRat ⟨M, e⟩ = (M : ℚ) / ((2 ^ k : Nat) : ℚ) := by
  subst he
  simp only [Dbl.toRat, zpow_neg, zpow_natCast]
  push_cast
  rw [div_eq_mul_inv]

/-- The floor of a double whose value is the fraction `M / K`. -/
theorem Dbl.floor_of_toRat (x : Dbl) (M K : Nat) (h : x.toRat = (M : ℚ) / (K : ℚ)) :
    x.floor = ((M / K : Nat) : Int) := by
  rw [Dbl.floor_eq, h, Rat.floor_natCast_div_natCast]
  simp

/-- The double product of a draw by 3, as a fraction: the draw is `m / (D * K)`,
the product is `M / K` with `D * M` within `D / 2` of `3 * m`, where `D` is 1, 2
or 4 according to the number of bits rounded away. -/
theorem mulThree_spec (r : Dbl) (h : isRandomDraw r) :
    ∃ D K M : Nat, (D = 1 ∨ D = 2 ∨ D = 4) ∧ 0 < K ∧ r.m < D * K ∧
      r.toRat = (r.m : ℚ) / ((D * K : Nat) : ℚ) ∧
      (mulThree r).toRat = (M : ℚ) / (K : ℚ) ∧
      2 * (D * M) ≤ 6 * r.m + D ∧ 6 * r.m ≤ 2 * (D * M) + D := by
  obtain ⟨m, e⟩ := r
  obtain ⟨_, _, hneg, hlt⟩ := h
  simp only at hneg hlt
  obtain ⟨k, hk⟩ : ∃ k : Nat, e = -(k : ℤ) := ⟨(-e).toNat, by omega⟩
  subst hk
  dsimp only
  rw [neg_neg, Int.toNat_ofNat] at hlt
  have hpos : ∀ j : Nat, 0 < 2 ^ j := fun j => pow_pos (by norm_num) j
  by_cases h1 : 3 * m < 2 ^ 53
  · refine ⟨1, 2 ^ k, 3 * m, Or.inl rfl, hpos k, by omega, ?_, ?_, by omega, by omega⟩
    · rw [one_mul]; exact Dbl.toRat_of_neg m k _ rfl
    · simp only [mulThree, h1, if_true]
      exact Dbl.toRat_of_neg (3 * m) k _ rfl
  · have hk2 : 2 ≤ k := by
      by_contra hc
      have : 2 ^ k ≤ 2 ^ 1 := Nat.pow_le_pow_right (by norm_num) (by omega)
      omega
    by_cases h2 : 3 * m < 2 ^ 54
    · have hpow : 2 ^ k = 2 * 2 ^ (k - 1) := by
        rw [← pow_succ']; congr 1; omega
      have hb := roundTiesToEven_two (3 * m)
      refine ⟨2, 2 ^ (k - 1), roundTiesToEven (3 * m) 2, Or.inr (Or.inl rfl), hpos _,
        by omega, ?_, ?_, by omega, by omega⟩
      · rw [← hpow]; exact Dbl.toRat_of_neg m k _ rfl
      · simp only [mulThree, h1, h2, if_true, if_false]
        exact Dbl.toRat_of_neg _ (k - 1) _ (by omega)
    · have hk3 : 3 ≤ k := by
        by_contra hc
        have : 2 ^ k ≤ 2 ^ 2 := Nat.pow_le_pow_right (by norm_num) (by omega)
        omega
      have hpow : 2 ^ k = 4 * 2 ^ (k - 2) := by
        have : k = (k - 2) + 2 := by omega
        conv_lhs => rw [this, pow_add]
        ring
      have hb := roundTiesToEven_four (3 * m)
      refine ⟨4, 2 ^ (k - 2), roundTiesToEven (3 * m) 4, Or.inr (Or.inr rfl), hpos _,
        by omega, ?_, ?_, by omega, by omega⟩
      · rw [← hpow]; exact Dbl.toRat_of_neg m k _ rfl
      · simp only [mulThree, h1, h2, if_false]
        exact Dbl.toRat_of_neg _ (k - 2) _ (by omega)


/-- Integer core of the door computation: if the exact product `3 * m / (D * K)`
lies in `[n, n + 1)`, the floor of the rounded product `M / K` is `n`, or it is
`n + 1` when the product rounded up to the integer `n + 1`, which cannot be 3. -/
theorem floor_of_rounded (D K M m n : Nat) (hD : D = 1 ∨ D = 2 ∨ D = 4) (hK : 0 < K)
    (hm : m < D * K) (h1 : 2 * (D * M) ≤ 6 * m + D) (h2 : 6 * m ≤ 2 * (D * M) + D)
    (hlo : n * (D * K) ≤ 3 * m) (hhi : 3 * m < (n + 1) * (D * K)) :
    M / K = n ∨ (M / K = n + 1 ∧ M = (n + 1) * K ∧ n + 1 < 3) := by
  have hn : n < 3 := by
    by_contra hc
    have : 3 * (D * K) ≤ n * (D * K) := Nat.mul_le_mul_right _ (by omega)
    omega
  have hbounds : n * K ≤ M ∧ M ≤ (n + 1) * K ∧ (M = (n + 1) * K → n + 1 < 3) := by
    interval_cases n <;> rcases hD with rfl | rfl | rfl <;>
      refine ⟨?_, ?_, ?_⟩ <;> omega
  obtain ⟨hlow, hup, hthree⟩ := hbounds
  rcases Nat.lt_or_ge M ((n + 1) * K) with hlt | hge
  · exact Or.inl (Nat.div_eq_of_lt_le hlow hlt)
  · have hM : M = (n + 1) * K := le_antisymm hup hge
    exact Or.inr ⟨by rw [hM]; exact Nat.mul_div_cancel _ hK, hM, hthree hM⟩

/-- Comparison `n / 3 ≤ m / N` of rationals, over the naturals. -/
theorem thirds_le_iff (n m N : Nat) (hN : 0 < N) :
    (n : ℚ) / 3 ≤ (m : ℚ) / (N : ℚ) ↔ n * N ≤ 3 * m := by
  rw [div_le_div_iff₀ (by norm_num) (by exact_mod_cast hN)]
  constructor
  · intro h
    have h' : n * N ≤ m * 3 := by exact_mod_cast h
    omega
  · intro h
    have h' : n * N ≤ m * 3 := by omega
    exact_mod_cast h'

/-- Comparison `m / N < n / 3` of rationals, over the naturals. -/
theorem lt_thirds_iff (n m N : Nat) (hN : 0 < N) :
    (m : ℚ) / (N : ℚ) < (n : ℚ) / 3 ↔ 3 * m < n * N := by
  rw [div_lt_div_iff₀ (by exact_mod_cast hN) (by norm_num)]
  constructor
  · intro h
    have h' : m * 3 < n * N := by exact_mod_cast h
    omega
  · intro h
    have h' : m * 3 < n * N := by omega
    exact_mod_cast h'

/-- The door drawn from `r`: it is the floor of the rounded product plus one, a
door in {1,2,3}, and for `r` in `[(d-1)/3, d/3)` it is `d`, or `d + 1` when the
product rounds up to exactly `d`. -/
theorem drawWinningDoor_spec (r : Dbl) (hr : isRandomDraw r) :
    drawWinningDoor r = ⌊(mulThree r).toRat⌋ + 1 ∧
    0 ≤ r.toRat ∧ r.toRat < 1 ∧
    isDoor (drawWinningDoor r) ∧
    (∀ d : Int, isDoor d → ((d : ℚ) - 1) / 3 ≤ r.toRat → r.toRat < (d : ℚ) / 3 →
      drawWinningDoor r = d ∨
      (drawWinningDoor r = d + 1 ∧ (mulThree r).toRat = (d : ℚ) ∧ d ≠ 3)) := by
  obtain ⟨D, K, M, hD, hK, hm, hr_eq, hy_eq, h1, h2⟩ := mulThree_spec r hr
  have hDK : 0 < D * K := by rcases hD with rfl | rfl | rfl <;> omega
  have hfloor : (mulThree r).floor = ((M / K : Nat) : Int) :=
    Dbl.floor_of_toRat _ M K hy_eq
  have hcore : ∀ n : Nat, (n : ℚ) / 3 ≤ r.toRat → r.toRat < ((n + 1 : Nat) : ℚ) / 3 →
      M / K = n ∨ (M / K = n + 1 ∧ M = (n + 1) * K ∧ n + 1 < 3) := by
    intro n hlo hhi
    rw [hr_eq] at hlo hhi
    exact floor_of_rounded D K M r.m n hD hK hm h1 h2
      ((thirds_le_iff n r.m (D * K) hDK).mp hlo)
      ((lt_thirds_iff (n + 1) r.m (D * K) hDK).mp hhi)
  have hnonneg : 0 ≤ r.toRat := by
    rw [hr_eq]; positivity
  have hlt1 : r.toRat < 1 := by
    rw [hr_eq, div_lt_one (by exact_mod_cast hDK)]
    exact_mod_cast hm
  refine ⟨?_, hnonneg, hlt1, ?_, ?_⟩
  · unfold drawWinningDoor
    rw [Dbl.floor_eq]
  · have hq := Nat.div_mul_le_self (3 * r.m) (D * K)
    have hq' : 3 * r.m < (3 * r.m / (D * K) + 1) * (D * K) := by
      have := Nat.lt_succ_self (3 * r.m / (D * K))
      exact (Nat.div_lt_iff_lt_mul hDK).mp this
    have := floor_of_rounded D K M r.m (3 * r.m / (D * K)) hD hK hm h1 h2 hq hq'
    have hq3 : 3 * r.m / (D * K) < 3 := by
      rw [Nat.div_lt_iff_lt_mul hDK]; omega
    unfold drawWinningDoor
    rw [hfloor]
    unfold isDoor
    generalize 3 * r.m / (D * K) = q at this hq3
    generalize M / K = F at this
    omega
  · intro d hd hlo hhi
    obtain ⟨n, rfl⟩ : ∃ n : Nat, d = (n : Int) + 1 := by
      rcases hd with rfl | rfl | rfl
      · exact ⟨0, rfl⟩
      · exact ⟨1, rfl⟩
      · exact ⟨2, rfl⟩
    have hlo' : (n : ℚ) / 3 ≤ r.toRat := by
      have : (((n : Int) + 1 : Int) : ℚ) - 1 = (n : ℚ) := by push_cast; ring
      rwa [this] at hlo
    have hhi' : r.toRat < ((n + 1 : Nat) : ℚ) / 3 := by
      have : (((n : Int) + 1 : Int) : ℚ) = ((n + 1 : Nat) : ℚ) := by push_cast; ring
      rwa [this] at hhi
    unfold drawWinningDoor
    rw [hfloor]
    rcases hcore n hlo' hhi' with h | ⟨h, hM, h3⟩
    · left; rw [h]
    · right
      refine ⟨by rw [h]; push_cast; ring, ?_, by omega⟩
      rw [hy_eq, hM]
      have hKq : (K : ℚ) ≠ 0 := by exact_mod_cast hK.ne'
      push_cast
      field_simp

/-- C8, as stated, fails: the draw `r = 0.6666666666666666`
(`6004799503160661 / 2 ^ 53`) lies in `[1/3, 2/3)`, where the claim promises door
2, but the double product `r * 3` rounds to exactly 2 and `resetGame` produces
door 3. -/
theorem draw_below_two_thirds_gives_door_three :
    isRandomDraw ⟨6004799503160661, -53⟩ ∧
    (1 : ℚ) / 3 ≤ Dbl.toRat ⟨6004799503160661, -53⟩ ∧
    Dbl.toRat ⟨6004799503160661, -53⟩ < (2 : ℚ) / 3 ∧
    mulThree ⟨6004799503160661, -53⟩ = ⟨2 ^ 53, -52⟩ ∧
    (resetGame (freshRound 1) ⟨6004799503160661, -53⟩).winningDoor = 3 := by
  refine ⟨by decide, ?_, ?_, by decide, by decide⟩
  · norm_num [Dbl.toRat]
  · norm_num [Dbl.toRat]

/-- C8 (amended): from every state `resetGame` yields `selectedDoor` unset,
`montyOpenedDoor` unset and phase `selecting`; for every draw `r` (a double with
`0 ≤ r < 1`) the new `winningDoor` is the floor of the double product `r * 3`
plus one and is in {1,2,3}; for `r` in `[(d-1)/3, d/3)` it is `d`, except that it
is `d + 1` when the product rounds up to exactly `d`, which never happens for
`d = 3`. -/
theorem resetGame_spec (s : Game) (r : Dbl) (hr : isRandomDraw r) :
    (resetGame s r).selectedDoor = none ∧
    (resetGame s r).montyOpenedDoor = none ∧
    (resetGame s r).gamePhase = Phase.selecting ∧
    (resetGame s r).winningDoor = ⌊(mulThree r).toRat⌋ + 1 ∧
    0 ≤ r.toRat ∧ r.toRat < 1 ∧
    isDoor (resetGame s r).winningDoor ∧
    (∀ d : Int, isDoor d → ((d : ℚ) - 1) / 3 ≤ r.toRat → r.toRat < (d : ℚ) / 3 →
      (resetGame s r).winningDoor = d ∨
      ((resetGame s r).winningDoor = d + 1 ∧ (mulThree r).toRat = (d : ℚ) ∧ d ≠ 3)) := by
  obtain ⟨h1, h2, h3, h4, h5⟩ := drawWinningDoor_spec r hr
  exact ⟨rfl, rfl, rfl, h1, h2, h3, h4, h5⟩

/-- Witness of the amended C8 at the draw `r = 0.5`, from a finished round. -/
theorem resetGame_spec_witness :
    (resetGame (playStay 2 1) ⟨1, -1⟩).selectedDoor = none ∧
    (resetGame (playStay 2 1) ⟨1, -1⟩).montyOpenedDoor = none ∧
    (resetGame (playStay 2 1) ⟨1, -1⟩).gamePhase = Phase.selecting ∧
    (resetGame (playStay 2 1) ⟨1, -1⟩).winningDoor = ⌊(mulThree ⟨1, -1⟩).toRat⌋ + 1 ∧
    0 ≤ Dbl.toRat ⟨1, -1⟩ ∧ Dbl.toRat ⟨1, -1⟩ < 1 ∧
    isDoor (resetGame (playStay 2 1) ⟨1, -1⟩).winningDoor ∧
    (∀ d : Int, isDoor d → ((d : ℚ) - 1) / 3 ≤ Dbl.toRat ⟨1, -1⟩ →
      Dbl.toRat ⟨1, -1⟩ < (d : ℚ) / 3 →
      (resetGame (playStay 2 1) ⟨1, -1⟩).winningDoor = d ∨
      ((resetGame (playStay 2 1) ⟨1, -1⟩).winningDoor = d + 1 ∧
        (mulThree ⟨1, -1⟩).toRat = (d : ℚ) ∧ d ≠ 3)) :=
  resetGame_spec (playStay 2 1) ⟨1, -1⟩ (by decide)

/-- The prize door is the same after any sequence of clicks and "Make Final
Choice!" presses. -/
theorem run_winningDoor (actions : List Action) :
    ∀ s : Game, (run s actions).winningDoor = s.winningDoor := by
  induction actions with
  | nil => intro s; rfl
  | cons a rest ih =>
    intro s
    have hstep : (step s a).winningDoor = s.winningDoor := by
      cases a with
      | click d => simp only [step, handleDoorClick]; split_ifs <;> rfl
      | makeFinal => simp only [step, makeFinalChoice]; split_ifs <;> rfl
    show (run (step s a) rest).winningDoor = s.winningDoor
    rw [ih (step s a), hstep]

/-- C9: `winningDoor` is fixed for the lifetime of a round: `handleDoorClick`,
the "Make Final Choice!" transition and every sequence of them leave it
unchanged; `resetGame` assigns it the freshly drawn door, and some draw changes
it. -/
theorem winningDoor_fixed_within_round (s : Game) (door : Int) :
    (handleDoorClick s door).winningDoor = s.winningDoor ∧
    (makeFinalChoice s).winningDoor = s.winningDoor ∧
    (∀ actions : List Action, (run s actions).winningDoor = s.winningDoor) ∧
    (∀ r : Dbl, (resetGame s r).winningDoor = drawWinningDoor r) ∧
    (∃ r : Dbl, isRandomDraw r ∧ (resetGame s r).winningDoor ≠ s.winningDoor) := by
  refine ⟨?_, ?_, fun actions => run_winningDoor actions s, fun _ => rfl, ?_⟩
  · simp only [handleDoorClick]; split_ifs <;> rfl
  · simp only [makeFinalChoice]; split_ifs <;> rfl
  · by_cases h : s.winningDoor = 1
    · have h2 : drawWinningDoor ⟨1, -1⟩ = 2 := by decide
      refine ⟨⟨1, -1⟩, by decide, ?_⟩
      show drawWinningDoor ⟨1, -1⟩ ≠ s.winningDoor
      rw [h, h2]; decide
    · have h1 : drawWinningDoor ⟨0, -1⟩ = 1 := by decide
      refine ⟨⟨0, -1⟩, by decide, ?_⟩
      show drawWinningDoor ⟨0, -1⟩ ≠ s.winningDoor
      rw [h1]; exact fun hc => h hc.symm

end MontyHall

namespace Tracker

/-- C10: the status computed on save is `completed` when the step list is
non-empty, every step has `completed === true` and the current status is
in-progress, on-hold or pending; in every other case it is the current status.
`handleSubmit` saves exactly this status whenever the required fields are filled. -/
theorem finalStatus_spec (steps : List WorkflowStep) (status : String) (fd : FormData) :
    finalStatus steps status =
      (if steps ≠ [] ∧ (∀ s ∈ steps, s.completed = true) ∧
          (status = "in-progress" ∨ status = "on-hold" ∨ status = "pending")
        then "completed" else status) ∧
    (handleSubmit fd steps).map (fun pd => pd.form.status) =
      (if fd.projectName = "" ∨ fd.clientName = "" ∨ fd.clientEmail = "" ∨
          fd.deliveryDate = "" then none
        else some (finalStatus steps fd.status)) ∧
    finalStatus
      [{ step := "Scanning", responsiblePerson := "", dueDate := "", completed := true,
         completedDate := none, completedBy := none },
       { step := "Processing", responsiblePerson := "", dueDate := "", completed := true,
         completedDate := none, completedBy := none }] "in-progress" = "completed" := by
  refine ⟨?_, ?_, by decide⟩
  · cases steps with
    | nil => simp [finalStatus]
    | cons a rest =>
      simp [finalStatus, promotableStatuses]
  · unfold handleSubmit
    split <;> simp_all

/-- The frontend check as one conditional on the three conditions. -/
theorem finalStatus_eq_ite (steps : List WorkflowStep) (status : String) :
    finalStatus steps status =
      if steps ≠ [] ∧ (∀ s ∈ steps, s.completed = true) ∧ status ∈ promotableStatuses
      then "completed" else status := by
  cases steps with
  | nil => simp [finalStatus]
  | cons a rest => simp [finalStatus]

/-- The backend check computes the same status as the frontend check and keeps
the step list. -/
theorem updateProject_eq (steps : List WorkflowStep) (status : String) :
    updateProject { status := some status, workflowSteps := some steps } =
      { status := some (finalStatus steps status), workflowSteps := some steps } := by
  simp only [updateProject, finalStatus]
  split_ifs <;> rfl

/-- C11: when the step list is empty or at least one step has `completed = false`,
the auto-completion check of the frontend (`finalStatus`) and of the backend
(`updateProject`) return the current status unchanged; for Scanning completed,
Processing not completed and status `pending` the result is `pending`. -/
theorem autoCompletion_keeps_status (steps : List WorkflowStep) (status : String)
    (h : steps = [] ∨ ∃ s ∈ steps, s.completed = false) :
    finalStatus steps status = status ∧
    updateProject { status := some status, workflowSteps := some steps } =
      { status := some status, workflowSteps := some steps } ∧
    finalStatus
      [{ step := "Scanning", responsiblePerson := "", dueDate := "", completed := true,
         completedDate := none, completedBy := none },
       { step := "Processing", responsiblePerson := "", dueDate := "", completed := false,
         completedDate := none, completedBy := none }] "pending" = "pending" := by
  have hkeep : finalStatus steps status = status := by
    rw [finalStatus_eq_ite, if_neg]
    rintro ⟨hne, hall, -⟩
    rcases h with rfl | ⟨s, hs, hc⟩
    · exact hne rfl
    · rw [hall s hs] at hc
      exact Bool.noConfusion hc
  refine ⟨hkeep, ?_, by decide⟩
  rw [updateProject_eq, hkeep]

/-- Witness of C11 at the list Scanning (completed), Processing (not completed)
with status `pending`. -/
theorem autoCompletion_keeps_status_witness :
    finalStatus
      [{ step := "Scanning", responsiblePerson := "", dueDate := "", completed := true,
         completedDate := none, completedBy := none },
       { step := "Processing", responsiblePerson := "", dueDate := "", completed := false,
         completedDate := none, completedBy := none }] "pending" = "pending" ∧
    updateProject
      { status := some "pending",
        workflowSteps := some
          [{ step := "Scanning", responsiblePerson := "", dueDate := "", completed := true,
             completedDate := none, completedBy := none },
           { step := "Processing", responsiblePerson := "", dueDate := "", completed := false,
             completedDate := none, completedBy := none }] } =
      { status := some "pending",
        workflowSteps := some
          [{ step := "Scanning", responsiblePerson := "", dueDate := "", completed := true,
             completedDate := none, completedBy := none },
           { step := "Processing", responsiblePerson := "", dueDate := "", completed := false,
             completedDate := none, completedBy := none }] } ∧
    finalStatus
      [{ step := "Scanning", responsiblePerson := "", dueDate := "", completed := true,
         completedDate := none, completedBy := none },
       { step := "Processing", responsiblePerson := "", dueDate := "", completed := false,
         completedDate := none, completedBy := none }] "pending" = "pending" :=
  autoCompletion_keeps_status _ "pending"
    (Or.inr ⟨{ step := "Processing", responsiblePerson := "", dueDate := "",
               completed := false, completedDate := none, completedBy := none },
      by simp, rfl⟩)

/-- C12: promotion is one-way. For every step list and status the check returns
the current status or `completed`, in the frontend and in the backend, and a
status that is already `completed` stays `completed` whatever the steps are. -/
theorem promotion_is_one_way (steps : List WorkflowStep) (status : String) :
    (finalStatus steps status = status ∨ finalStatus steps status = "completed") ∧
    finalStatus steps "completed" = "completed" ∧
    ((updateProject { status := some status, workflowSteps := some steps }).status
        = some status ∨
      (updateProject { status := some status, workflowSteps := some steps }).status
        = some "completed") ∧
    (updateProject { status := some "completed", workflowSteps := some steps }).status
      = some "completed" ∧
    (updateProject { status := some status, workflowSteps := some steps }).workflowSteps
      = some steps := by
  have h1 : finalStatus steps status = status ∨ finalStatus steps status = "completed" := by
    rw [finalStatus_eq_ite]
    split_ifs
    · exact Or.inr rfl
    · exact Or.inl rfl
  have h2 : finalStatus steps "completed" = "completed" := by
    rw [finalStatus_eq_ite]
    split_ifs <;> rfl
  refine ⟨h1, h2, ?_, ?_, ?_⟩
  · rw [updateProject_eq]
    rcases h1 with h | h
    · exact Or.inl (by rw [h])
    · exact Or.inr (by rw [h])
  · rw [updateProject_eq, h2]
  · rw [updateProject_eq]

/-- Element `i` of the list after `handleCompleteToggle`. -/
theorem handleCompleteToggle_get (now : String) (prev : List WorkflowStep)
    (step : String) (i : Nat) :
    (handleCompleteToggle now prev step)[i]? =
      (prev[i]?).map (fun s => if s.step = step then toggledStep now s else s) := by
  simp [handleCompleteToggle]

/-- C13: on a list containing a step named `step`, `handleCompleteToggle step`
keeps the length, leaves every step with another name as it is, and flips
`completed` of every step named `step`, keeping its name, person and due date;
from false to true `completedDate` becomes the current time and `completedBy`
the step's `responsiblePerson`; from true to false `completedDate` becomes
`null` and `completedBy` the empty string. -/
theorem handleCompleteToggle_spec (now : String) (prev : List WorkflowStep)
    (step : String) (hmem : ∃ s ∈ prev, s.step = step) :
    (handleCompleteToggle now prev step).length = prev.length ∧
    (∃ s' ∈ handleCompleteToggle now prev step, s'.step = step) ∧
    ∀ (i : Nat) (s : WorkflowStep), prev[i]? = some s →
      ∃ s', (handleCompleteToggle now prev step)[i]? = some s' ∧
        (s.step ≠ step → s' = s) ∧
        (s.step = step →
          s'.completed = !s.completed ∧ s'.step = s.step ∧
          s'.responsiblePerson = s.responsiblePerson ∧ s'.dueDate = s.dueDate ∧
          (s.completed = false →
            s'.completed = true ∧ s'.completedDate = some (some now) ∧
            s'.completedBy = some s.responsiblePerson) ∧
          (s.completed = true →
            s'.completed = false ∧ s'.completedDate = some none ∧
            s'.completedBy = some "")) := by
  refine ⟨by simp [handleCompleteToggle], ?_, ?_⟩
  · obtain ⟨s, hs, hname⟩ := hmem
    refine ⟨toggledStep now s, ?_, by simpa [toggledStep] using hname⟩
    simp only [handleCompleteToggle, List.mem_map]
    exact ⟨s, hs, by simp [hname]⟩
  · intro i s hi
    rw [handleCompleteToggle_get, hi]
    by_cases hname : s.step = step
    · refine ⟨toggledStep now s, by simp [hname], fun h => absurd hname h, fun _ => ?_⟩
      refine ⟨rfl, rfl, rfl, rfl, ?_, ?_⟩
      · intro hc
        simp [toggledStep, hc]
      · intro hc
        simp [toggledStep, hc]
    · exact ⟨s, by simp [hname], fun _ => rfl, fun h => absurd h hname⟩

/-- Witness of C13: toggling "Scanning" (assigned to Ann, not completed) at time
`2024-05-01T10:00:00.000Z` in a list that also holds "Processing". -/
theorem handleCompleteToggle_spec_witness :
    (handleCompleteToggle "2024-05-01T10:00:00.000Z"
      [{ newStep "Scanning" with responsiblePerson := "Ann" }, newStep "Processing"]
      "Scanning").length =
      [{ newStep "Scanning" with responsiblePerson := "Ann" }, newStep "Processing"].length ∧
    (∃ s' ∈ handleCompleteToggle "2024-05-01T10:00:00.000Z"
      [{ newStep "Scanning" with responsiblePerson := "Ann" }, newStep "Processing"]
      "Scanning", s'.step = "Scanning") ∧
    ∀ (i : Nat) (s : WorkflowStep),
      [{ newStep "Scanning" with responsiblePerson := "Ann" }, newStep "Processing"][i]?
        = some s →
      ∃ s', (handleCompleteToggle "2024-05-01T10:00:00.000Z"
          [{ newStep "Scanning" with responsiblePerson := "Ann" }, newStep "Processing"]
          "Scanning")[i]? = some s' ∧
        (s.step ≠ "Scanning" → s' = s) ∧
        (s.step = "Scanning" →
          s'.completed = !s.completed ∧ s'.step = s.step ∧
          s'.responsiblePerson = s.responsiblePerson ∧ s'.dueDate = s.dueDate ∧
          (s.completed = false →
            s'.completed = true ∧ s'.completedDate = some (some "2024-05-01T10:00:00.000Z") ∧
            s'.completedBy = some s.responsiblePerson) ∧
          (s.completed = true →
            s'.completed = false ∧ s'.completedDate = some none ∧
            s'.completedBy = some "")) :=
  handleCompleteToggle_spec "2024-05-01T10:00:00.000Z"
    [{ newStep "Scanning" with responsiblePerson := "Ann" }, newStep "Processing"]
    "Scanning" ⟨{ newStep "Scanning" with responsiblePerson := "Ann" }, by simp, rfl⟩

/-- Two toggles of the same name, element by element. -/
theorem toggle_twice_get (t1 t2 : String) (prev : List WorkflowStep)
    (step : String) (i : Nat) :
    (handleCompleteToggle t2 (handleCompleteToggle t1 prev step) step)[i]? =
      (prev[i]?).map (fun s =>
        if s.step = step then toggledStep t2 (toggledStep t1 s) else s) := by
  rw [handleCompleteToggle_get, handleCompleteToggle_get]
  cases prev[i]? with
  | none => rfl
  | some s =>
    by_cases h : s.step = step
    · have h' : (toggledStep t1 s).step = step := h
      simp [h, h']
    · simp [h]

/-- C14, as stated, fails: the step just added by `handleCheckboxChange` has no
`completedDate` and no `completedBy`; after two toggles it has `completedDate`
`null` and `completedBy` the empty string. A not-completed step that still
carries a `completedBy` value loses it as well. -/
theorem toggle_twice_changes_fresh_step :
    (handleCheckboxChange { selectedSteps := fun _ => false, workflowSteps := [] }
      "Scanning" 0).workflowSteps = [newStep "Scanning"] ∧
    (newStep "Scanning").completed = false ∧
    handleCompleteToggle "2024-05-01T10:01:00.000Z"
      (handleCompleteToggle "2024-05-01T10:00:00.000Z" [newStep "Scanning"] "Scanning")
      "Scanning" =
      [{ newStep "Scanning" with completedDate := some none, completedBy := some "" }] ∧
    handleCompleteToggle "2024-05-01T10:01:00.000Z"
      (handleCompleteToggle "2024-05-01T10:00:00.000Z" [newStep "Scanning"] "Scanning")
      "Scanning" ≠ [newStep "Scanning"] ∧
    handleCompleteToggle "2024-05-01T10:01:00.000Z"
      (handleCompleteToggle "2024-05-01T10:00:00.000Z"
        [{ newStep "Scanning" with completedDate := some none, completedBy := some "Bob" }]
        "Scanning")
      "Scanning" ≠
      [{ newStep "Scanning" with completedDate := some none, completedBy := some "Bob" }] := by
  refine ⟨by decide, rfl, by decide, by decide, by decide⟩

/-- C14 (amended): for a not-completed step named `step` at position `i`, two
calls of `handleCompleteToggle step` keep the length of the list, leave every
step with another name as it was, and return the step with its original name,
person, due date and `completed = false`, with `completedDate` `null` and
`completedBy` the empty string; the step is exactly the original one when it had
these two values before. -/
theorem toggle_twice_restores (t1 t2 : String) (prev : List WorkflowStep)
    (step : String) (i : Nat) (s : WorkflowStep)
    (hi : prev[i]? = some s) (hname : s.step = step) (hnc : s.completed = false) :
    (handleCompleteToggle t2 (handleCompleteToggle t1 prev step) step).length
      = prev.length ∧
    (handleCompleteToggle t2 (handleCompleteToggle t1 prev step) step)[i]? =
      some { s with completedDate := some none, completedBy := some "" } ∧
    (s.completedDate = some none → s.completedBy = some "" →
      (handleCompleteToggle t2 (handleCompleteToggle t1 prev step) step)[i]? = some s) ∧
    (∀ (j : Nat) (u : WorkflowStep), prev[j]? = some u → u.step ≠ step →
      (handleCompleteToggle t2 (handleCompleteToggle t1 prev step) step)[j]? = some u) := by
  have hs : toggledStep t2 (toggledStep t1 s) =
      { s with completedDate := some none, completedBy := some "" } := by
    obtain ⟨n, rp, dd, c, cd, cb⟩ := s
    simp only at hnc
    subst hnc
    simp [toggledStep]
  have hget : (handleCompleteToggle t2 (handleCompleteToggle t1 prev step) step)[i]? =
      some { s with completedDate := some none, completedBy := some "" } := by
    rw [toggle_twice_get, hi]
    simp [hname, hs]
  refine ⟨by simp [handleCompleteToggle], hget, ?_, ?_⟩
  · intro hcd hcb
    rw [hget]
    obtain ⟨n, rp, dd, c, cd, cb⟩ := s
    simp only at hcd hcb
    subst hcd hcb
    rfl
  · intro j u hj hu
    rw [toggle_twice_get, hj]
    simp [hu]

/-- Witness of the amended C14: a step as the backend stores it (not completed,
`completedDate` `null`, `completedBy` empty) next to another step. -/
theorem toggle_twice_restores_witness :
    (handleCompleteToggle "t2" (handleCompleteToggle "t1"
      [{ newStep "Scanning" with completedDate := some none, completedBy := some "" },
       newStep "Processing"] "Scanning") "Scanning").length
      = [{ newStep "Scanning" with completedDate := some none, completedBy := some "" },
         newStep "Processing"].length ∧
    (handleCompleteToggle "t2" (handleCompleteToggle "t1"
      [{ newStep "Scanning" with completedDate := some none, completedBy := some "" },
       newStep "Processing"] "Scanning") "Scanning")[0]? =
      some { ({ newStep "Scanning" with completedDate := some none, completedBy := some "" } :
          WorkflowStep) with completedDate := some none, completedBy := some "" } ∧
    (({ newStep "Scanning" with completedDate := some none, completedBy := some "" } :
        WorkflowStep).completedDate = some none →
      ({ newStep "Scanning" with completedDate := some none, completedBy := some "" } :
        WorkflowStep).completedBy = some "" →
      (handleCompleteToggle "t2" (handleCompleteToggle "t1"
        [{ newStep "Scanning" with completedDate := some none, completedBy := some "" },
         newStep "Processing"] "Scanning") "Scanning")[0]? =
        some { newStep "Scanning" with completedDate := some none, completedBy := some "" }) ∧
    (∀ (j : Nat) (u : WorkflowStep),
      [{ newStep "Scanning" with completedDate := some none, completedBy := some "" },
       newStep "Processing"][j]? = some u → u.step ≠ "Scanning" →
      (handleCompleteToggle "t2" (handleCompleteToggle "t1"
        [{ newStep "Scanning" with completedDate := some none, completedBy := some "" },
         newStep "Processing"] "Scanning") "Scanning")[j]? = some u) :=
  toggle_twice_restores "t1" "t2"
    [{ newStep "Scanning" with completedDate := some none, completedBy := some "" },
     newStep "Processing"] "Scanning" 0
    { newStep "Scanning" with completedDate := some none, completedBy := some "" }
    rfl rfl rfl

/-- With the required fields filled, `handleSubmit` saves the status that
`finalStatus` computes. -/
theorem handleSubmit_status (fd : FormData) (steps : List WorkflowStep)
    (hreq : fd.projectName ≠ "" ∧ fd.clientName ≠ "" ∧ fd.clientEmail ≠ "" ∧
      fd.deliveryDate ≠ "") :
    (handleSubmit fd steps).map (fun pd => pd.form.status) =
      some (finalStatus steps fd.status) := by
  obtain ⟨h1, h2, h3, h4⟩ := hreq
  simp [handleSubmit, h1, h2, h3, h4]

/-- C15, as stated, fails: with status `in-progress` and the single step
"Scanning" not completed, the toggle leaves a non-empty list in which every step
is completed, and the status in the modal's state is still `in-progress`. -/
theorem toggle_does_not_promote_status :
    (toggleInEditModal "2024-05-01T10:00:00.000Z"
      modalInProgress "Scanning").workflowSteps =
      [{ newStep "Scanning" with
          completed := true
          completedDate := some (some "2024-05-01T10:00:00.000Z")
          completedBy := some "" }] ∧
    (toggleInEditModal "2024-05-01T10:00:00.000Z"
      modalInProgress "Scanning").formData.status =
      "in-progress" ∧
    (toggleInEditModal "2024-05-01T10:00:00.000Z"
      modalInProgress "Scanning").formData.status ≠
      "completed" := by
  refine ⟨by decide, by decide, by decide⟩

/-- C15 (amended): `handleCompleteToggle` changes the step list only and leaves
the form data, with the parent status, as it is; the promotion is applied when
the form is saved: if the toggle leaves a non-empty list in which every step is
completed and the status is in-progress, on-hold or pending, `handleSubmit` with
the required fields filled saves the status `completed`. -/
theorem promotion_happens_on_save (now : String) (st : EditModalState) (step : String)
    (hreq : st.formData.projectName ≠ "" ∧ st.formData.clientName ≠ "" ∧
      st.formData.clientEmail ≠ "" ∧ st.formData.deliveryDate ≠ "")
    (hne : (toggleInEditModal now st step).workflowSteps ≠ [])
    (hall : ∀ s ∈ (toggleInEditModal now st step).workflowSteps, s.completed = true)
    (hst : st.formData.status = "in-progress" ∨ st.formData.status = "on-hold" ∨
      st.formData.status = "pending") :
    (toggleInEditModal now st step).formData = st.formData ∧
    (toggleInEditModal now st step).formData.status = st.formData.status ∧
    (toggleInEditModal now st step).workflowSteps =
      handleCompleteToggle now st.workflowSteps step ∧
    (submitEditModal (toggleInEditModal now st step)).map (fun pd => pd.form.status) =
      some "completed" ∧
    (submitEditModal (toggleInEditModal now st step)).map (fun pd => pd.workflowSteps) =
      some (handleCompleteToggle now st.workflowSteps step) := by
  have hfin : finalStatus (toggleInEditModal now st step).workflowSteps
      st.formData.status = "completed" := by
    rw [finalStatus_eq_ite, if_pos]
    refine ⟨hne, hall, ?_⟩
    rcases hst with h | h | h <;> simp [h, promotableStatuses]
  refine ⟨rfl, rfl, rfl, ?_, ?_⟩
  · show (handleSubmit st.formData (toggleInEditModal now st step).workflowSteps).map
      (fun pd => pd.form.status) = some "completed"
    rw [handleSubmit_status _ _ hreq, hfin]
  · obtain ⟨h1, h2, h3, h4⟩ := hreq
    simp [submitEditModal, handleSubmit, toggleInEditModal, h1, h2, h3, h4]

/-- Witness of the amended C15 on the state of the counterexample: the toggle
keeps `in-progress`, the save that follows stores `completed`. -/
theorem promotion_happens_on_save_witness :
    (toggleInEditModal "2024-05-01T10:00:00.000Z" modalInProgress "Scanning").formData =
      modalInProgress.formData ∧
    (toggleInEditModal "2024-05-01T10:00:00.000Z" modalInProgress "Scanning").formData.status
      = modalInProgress.formData.status ∧
    (toggleInEditModal "2024-05-01T10:00:00.000Z" modalInProgress "Scanning").workflowSteps =
      handleCompleteToggle "2024-05-01T10:00:00.000Z" modalInProgress.workflowSteps
        "Scanning" ∧
    (submitEditModal
      (toggleInEditModal "2024-05-01T10:00:00.000Z" modalInProgress "Scanning")).map
      (fun pd => pd.form.status) = some "completed" ∧
    (submitEditModal
      (toggleInEditModal "2024-05-01T10:00:00.000Z" modalInProgress "Scanning")).map
      (fun pd => pd.workflowSteps) =
      some (handleCompleteToggle "2024-05-01T10:00:00.000Z" modalInProgress.workflowSteps
        "Scanning") :=
  promotion_happens_on_save "2024-05-01T10:00:00.000Z" modalInProgress "Scanning"
    (by decide) (by decide) (by decide) (by decide)

/-- A list without a step named `step` has count 0 for that name. -/
theorem countNamed_eq_zero (steps : List WorkflowStep) (step : String)
    (h : ∀ s ∈ steps, s.step ≠ step) : countNamed steps step = 0 := by
  unfold countNamed
  rw [List.countP_eq_zero]
  intro s hs
  simpa using h s hs

/-- Removing the steps named `step` changes nothing when there is none. -/
theorem filter_ne_self (steps : List WorkflowStep) (step : String)
    (h : ∀ s ∈ steps, s.step ≠ step) :
    steps.filter (fun s => s.step != step) = steps := by
  rw [List.filter_eq_self]
  intro s hs
  simpa using h s hs

/-- C16: when the box at `index` is unchecked and no step of the list is named
`step`, `handleCheckboxChange step index` appends exactly one step at the end,
with that name, `completed = false`, empty `responsiblePerson` and empty
`dueDate`; the earlier steps stay in place and the box becomes checked. -/
theorem checking_box_appends_step (st : WorkflowState) (step : String) (index : Nat)
    (hbox : st.selectedSteps index = false)
    (hnew : ∀ s ∈ st.workflowSteps, s.step ≠ step) :
    (handleCheckboxChange st step index).workflowSteps =
      st.workflowSteps ++
        [{ step := step, responsiblePerson := "", dueDate := "", completed := false,
           completedDate := none, completedBy := none }] ∧
    (handleCheckboxChange st step index).workflowSteps.length =
      st.workflowSteps.length + 1 ∧
    (∀ i, i < st.workflowSteps.length →
      (handleCheckboxChange st step index).workflowSteps[i]? = st.workflowSteps[i]?) ∧
    countNamed (handleCheckboxChange st step index).workflowSteps step = 1 ∧
    (handleCheckboxChange st step index).selectedSteps index = true ∧
    (∀ j, j ≠ index →
      (handleCheckboxChange st step index).selectedSteps j = st.selectedSteps j) := by
  have hlist : (handleCheckboxChange st step index).workflowSteps =
      st.workflowSteps ++ [newStep step] := by
    simp [handleCheckboxChange, hbox]
  refine ⟨hlist, by rw [hlist]; simp, ?_, ?_, ?_, ?_⟩
  · intro i hi
    rw [hlist, List.getElem?_append_left hi]
  · rw [hlist]
    unfold countNamed
    rw [List.countP_append]
    have h0 := countNamed_eq_zero st.workflowSteps step hnew
    unfold countNamed at h0
    rw [h0]
    simp [newStep]
  · simp [handleCheckboxChange, hbox]
  · intro j hj
    simp [handleCheckboxChange, hj]

/-- Witness of C16: checking "Processing" (index 2) on a list holding "Scanning". -/
theorem checking_box_appends_step_witness :
    (handleCheckboxChange
      { selectedSteps := fun i => decide (i = 0), workflowSteps := [newStep "Scanning"] }
      "Processing" 2).workflowSteps =
      [newStep "Scanning"] ++
        [{ step := "Processing", responsiblePerson := "", dueDate := "", completed := false,
           completedDate := none, completedBy := none }] ∧
    (handleCheckboxChange
      { selectedSteps := fun i => decide (i = 0), workflowSteps := [newStep "Scanning"] }
      "Processing" 2).workflowSteps.length = [newStep "Scanning"].length + 1 ∧
    (∀ i, i < [newStep "Scanning"].length →
      (handleCheckboxChange
        { selectedSteps := fun i => decide (i = 0), workflowSteps := [newStep "Scanning"] }
        "Processing" 2).workflowSteps[i]? = [newStep "Scanning"][i]?) ∧
    countNamed (handleCheckboxChange
      { selectedSteps := fun i => decide (i = 0), workflowSteps := [newStep "Scanning"] }
      "Processing" 2).workflowSteps "Processing" = 1 ∧
    (handleCheckboxChange
      { selectedSteps := fun i => decide (i = 0), workflowSteps := [newStep "Scanning"] }
      "Processing" 2).selectedSteps 2 = true ∧
    (∀ j, j ≠ 2 →
      (handleCheckboxChange
        { selectedSteps := fun i => decide (i = 0), workflowSteps := [newStep "Scanning"] }
        "Processing" 2).selectedSteps j = decide (j = 0)) :=
  checking_box_appends_step
    { selectedSteps := fun i => decide (i = 0), workflowSteps := [newStep "Scanning"] }
    "Processing" 2 rfl (by decide)

/-- C17, as stated, fails: `handleCheckboxChange` is a toggle. Two calls in a row
for "Scanning" at the same index, on a list without it, end with no "Scanning"
entry at all (the second call removes what the first one added); and when the
add branch runs while a "Scanning" step is present, a second entry is appended. -/
theorem second_click_removes_step :
    countNamed (handleCheckboxChange { selectedSteps := fun _ => false, workflowSteps := [] }
      "Scanning" 0).workflowSteps "Scanning" = 1 ∧
    (handleCheckboxChange
      (handleCheckboxChange { selectedSteps := fun _ => false, workflowSteps := [] }
        "Scanning" 0) "Scanning" 0).workflowSteps = [] ∧
    countNamed (handleCheckboxChange
      (handleCheckboxChange { selectedSteps := fun _ => false, workflowSteps := [] }
        "Scanning" 0) "Scanning" 0).workflowSteps "Scanning" = 0 ∧
    countNamed (handleCheckboxChange
      { selectedSteps := fun _ => false, workflowSteps := [newStep "Scanning"] }
      "Scanning" 0).workflowSteps "Scanning" = 2 := by
  refine ⟨by decide, by decide, by decide, by decide⟩

/-- C17 (amended): on a list without a step named `step` and with the box at
`index` unchecked, the first `handleCheckboxChange step index` yields a list
with exactly one entry of that name and checks the box; the second call removes
that entry again, so the list is the original one, and unchecks the box. -/
theorem checkbox_toggles_step (st : WorkflowState) (step : String) (index : Nat)
    (hbox : st.selectedSteps index = false)
    (hnew : ∀ s ∈ st.workflowSteps, s.step ≠ step) :
    countNamed (handleCheckboxChange st step index).workflowSteps step = 1 ∧
    (handleCheckboxChange st step index).selectedSteps index = true ∧
    (handleCheckboxChange (handleCheckboxChange st step index) step index).workflowSteps
      = st.workflowSteps ∧
    countNamed
      (handleCheckboxChange (handleCheckboxChange st step index) step index).workflowSteps
      step = 0 ∧
    (handleCheckboxChange (handleCheckboxChange st step index) step index).selectedSteps
      index = false := by
  have hlist : (handleCheckboxChange st step index).workflowSteps =
      st.workflowSteps ++ [newStep step] := by
    simp [handleCheckboxChange, hbox]
  have hsel : (handleCheckboxChange st step index).selectedSteps index = true := by
    simp [handleCheckboxChange, hbox]
  have hback :
      (handleCheckboxChange (handleCheckboxChange st step index) step index).workflowSteps
        = st.workflowSteps := by
    have : (handleCheckboxChange (handleCheckboxChange st step index) step
        index).workflowSteps =
        (handleCheckboxChange st step index).workflowSteps.filter
          (fun s => s.step != step) := by
      simp [handleCheckboxChange, hbox]
    rw [this, hlist, List.filter_append, filter_ne_self _ _ hnew]
    simp [newStep]
  refine ⟨?_, hsel, hback, ?_, ?_⟩
  · rw [hlist]
    unfold countNamed
    rw [List.countP_append]
    have h0 := countNamed_eq_zero st.workflowSteps step hnew
    unfold countNamed at h0
    rw [h0]
    simp [newStep]
  · rw [hback]
    exact countNamed_eq_zero _ _ hnew
  · simp [handleCheckboxChange, hbox]

/-- Witness of the amended C17 for "Scanning" at index 0 on the empty list. -/
theorem checkbox_toggles_step_witness :
    countNamed (handleCheckboxChange { selectedSteps := fun _ => false, workflowSteps := [] }
      "Scanning" 0).workflowSteps "Scanning" = 1 ∧
    (handleCheckboxChange { selectedSteps := fun _ => false, workflowSteps := [] }
      "Scanning" 0).selectedSteps 0 = true ∧
    (handleCheckboxChange
      (handleCheckboxChange { selectedSteps := fun _ => false, workflowSteps := [] }
        "Scanning" 0) "Scanning" 0).workflowSteps = [] ∧
    countNamed
      (handleCheckboxChange
        (handleCheckboxChange { selectedSteps := fun _ => false, workflowSteps := [] }
          "Scanning" 0) "Scanning" 0).workflowSteps "Scanning" = 0 ∧
    (handleCheckboxChange
      (handleCheckboxChange { selectedSteps := fun _ => false, workflowSteps := [] }
        "Scanning" 0) "Scanning" 0).selectedSteps 0 = false :=
  checkbox_toggles_step { selectedSteps := fun _ => false, workflowSteps := [] }
    "Scanning" 0 rfl (by simp)

/-- C18: when the box at `index` is checked, `handleCheckboxChange step index`
removes the steps named `step` and keeps every other step in the same order; when
no step has that name the list is unchanged. The box becomes unchecked. -/
theorem unchecking_box_removes_step (st : WorkflowState) (step : String) (index : Nat)
    (hbox : st.selectedSteps index = true) :
    (handleCheckboxChange st step index).workflowSteps =
      st.workflowSteps.filter (fun s => s.step != step) ∧
    (∀ s ∈ (handleCheckboxChange st step index).workflowSteps, s.step ≠ step) ∧
    (∀ s ∈ st.workflowSteps, s.step ≠ step →
      s ∈ (handleCheckboxChange st step index).workflowSteps) ∧
    List.Sublist (handleCheckboxChange st step index).workflowSteps st.workflowSteps ∧
    countNamed (handleCheckboxChange st step index).workflowSteps step = 0 ∧
    ((∀ s ∈ st.workflowSteps, s.step ≠ step) →
      (handleCheckboxChange st step index).workflowSteps = st.workflowSteps) ∧
    (handleCheckboxChange st step index).selectedSteps index = false := by
  have hlist : (handleCheckboxChange st step index).workflowSteps =
      st.workflowSteps.filter (fun s => s.step != step) := by
    simp [handleCheckboxChange, hbox]
  have hout : ∀ s ∈ (handleCheckboxChange st step index).workflowSteps, s.step ≠ step := by
    intro s hs
    rw [hlist, List.mem_filter] at hs
    simpa using hs.2
  refine ⟨hlist, hout, ?_, ?_, countNamed_eq_zero _ _ hout, ?_, ?_⟩
  · intro s hs hne
    rw [hlist, List.mem_filter]
    exact ⟨hs, by simpa using hne⟩
  · rw [hlist]
    exact List.filter_sublist _
  · intro h
    rw [hlist]
    exact filter_ne_self _ _ h
  · simp [handleCheckboxChange, hbox]

/-- Witness of C18: unchecking "Scanning" (index 0) in the list Scanning,
Processing. -/
theorem unchecking_box_removes_step_witness :
    (handleCheckboxChange
      { selectedSteps := fun _ => true,
        workflowSteps := [newStep "Scanning", newStep "Processing"] }
      "Scanning" 0).workflowSteps =
      [newStep "Scanning", newStep "Processing"].filter (fun s => s.step != "Scanning") ∧
    (∀ s ∈ (handleCheckboxChange
      { selectedSteps := fun _ => true,
        workflowSteps := [newStep "Scanning", newStep "Processing"] }
      "Scanning" 0).workflowSteps, s.step ≠ "Scanning") ∧
    (∀ s ∈ [newStep "Scanning", newStep "Processing"], s.step ≠ "Scanning" →
      s ∈ (handleCheckboxChange
        { selectedSteps := fun _ => true,
          workflowSteps := [newStep "Scanning", newStep "Processing"] }
        "Scanning" 0).workflowSteps) ∧
    List.Sublist (handleCheckboxChange
      { selectedSteps := fun _ => true,
        workflowSteps := [newStep "Scanning", newStep "Processing"] }
      "Scanning" 0).workflowSteps [newStep "Scanning", newStep "Processing"] ∧
    countNamed (handleCheckboxChange
      { selectedSteps := fun _ => true,
        workflowSteps := [newStep "Scanning", newStep "Processing"] }
      "Scanning" 0).workflowSteps "Scanning" = 0 ∧
    ((∀ s ∈ [newStep "Scanning", newStep "Processing"], s.step ≠ "Scanning") →
      (handleCheckboxChange
        { selectedSteps := fun _ => true,
          workflowSteps := [newStep "Scanning", newStep "Processing"] }
        "Scanning" 0).workflowSteps = [newStep "Scanning", newStep "Processing"]) ∧
    (handleCheckboxChange
      { selectedSteps := fun _ => true,
        workflowSteps := [newStep "Scanning", newStep "Processing"] }
      "Scanning" 0).selectedSteps 0 = false :=
  unchecking_box_removes_step
    { selectedSteps := fun _ => true,
      workflowSteps := [newStep "Scanning", newStep "Processing"] }
    "Scanning" 0 rfl

/-- C19, as stated, fails: on the list holding only "Scanning",
`handlePersonChange("Processing", "Ann")` and
`handleDateChange("Processing", "2024-06-01")` complete normally with the
unchanged list; no error is reported. -/
theorem absent_step_change_reports_nothing :
    (∀ s ∈ [newStep "Scanning"], s.step ≠ "Processing") ∧
    handlePersonChangeCall [newStep "Scanning"] "Processing" "Ann" =
      Except.ok [newStep "Scanning"] ∧
    handleDateChangeCall [newStep "Scanning"] "Processing" "2024-06-01" =
      Except.ok [newStep "Scanning"] ∧
    (∀ e, handlePersonChangeCall [newStep "Scanning"] "Processing" "Ann" ≠ Except.error e) ∧
    (∀ e, handleDateChangeCall [newStep "Scanning"] "Processing" "2024-06-01" ≠
      Except.error e) := by
  refine ⟨by decide, rfl, rfl, ?_, ?_⟩
  · intro e h
    exact Except.noConfusion h
  · intro e h
    exact Except.noConfusion h

/-- A `map` that only touches the steps named `step` is the identity on a list
without such a step. -/
theorem map_named_eq_self (f : WorkflowStep → WorkflowStep) (prev : List WorkflowStep)
    (step : String) (h : ∀ s ∈ prev, s.step ≠ step) :
    prev.map (fun s => if s.step = step then f s else s) = prev := by
  induction prev with
  | nil => rfl
  | cons a rest ih =>
    have ha : a.step ≠ step := h a (List.mem_cons_self _ _)
    rw [List.map_cons, if_neg ha, ih (fun s hs => h s (List.mem_cons_of_mem _ hs))]

/-- C19 (amended): on a list with no step named `name`, `handlePersonChange` and
`handleDateChange` are silent no-ops: the calls complete normally and the step
list is unchanged. -/
theorem absent_step_change_is_noop (prev : List WorkflowStep) (name person date : String)
    (habsent : ∀ s ∈ prev, s.step ≠ name) :
    handlePersonChange prev name person = prev ∧
    handleDateChange prev name date = prev ∧
    handlePersonChangeCall prev name person = Except.ok prev ∧
    handleDateChangeCall prev name date = Except.ok prev := by
  have h1 : handlePersonChange prev name person = prev :=
    map_named_eq_self (fun s => { s with responsiblePerson := person }) prev name habsent
  have h2 : handleDateChange prev name date = prev :=
    map_named_eq_self (fun s => { s with dueDate := date }) prev name habsent
  refine ⟨h1, h2, ?_, ?_⟩
  · unfold handlePersonChangeCall
    rw [h1]
  · unfold handleDateChangeCall
    rw [h2]

/-- Witness of the amended C19 on the list holding only "Scanning". -/
theorem absent_step_change_is_noop_witness :
    handlePersonChange [newStep "Scanning"] "Processing" "Ann" = [newStep "Scanning"] ∧
    handleDateChange [newStep "Scanning"] "Processing" "2024-06-01" = [newStep "Scanning"] ∧
    handlePersonChangeCall [newStep "Scanning"] "Processing" "Ann" =
      Except.ok [newStep "Scanning"] ∧
    handleDateChangeCall [newStep "Scanning"] "Processing" "2024-06-01" =
      Except.ok [newStep "Scanning"] :=
  absent_step_change_is_noop [newStep "Scanning"] "Processing" "Ann" "2024-06-01"
    (by decide)

/-- With the schema path `workflowSteps` in place of `workflow`, the body of
`completeWorkflowStep` completes normally and marks the first step named
`stepName` complete, leaving the other steps as they are. -/
theorem completeWorkflowStepAt_workflowSteps (p : Project) (stepName person now : String) :
    completeWorkflowStepAt "workflowSteps" p stepName person now =
      Except.ok { p with workflowSteps := completeFirst stepName person now p.workflowSteps } ∧
    completeFirst "Scanning" "Ann" "2024-05-01T10:00:00.000Z" projectScanning.workflowSteps =
      [{ step := "Scanning", responsiblePerson := "", dueDate := "", completed := true,
         completedDate := some (some "2024-05-01T10:00:00.000Z"),
         completedBy := some "Ann" }] := by
  refine ⟨?_, by decide⟩
  simp [completeWorkflowStepAt, Project.arrayProp, Project.setArrayProp]

/-- C20 (code defect): `completeWorkflowStep` reads `this.workflow`, which is not
a path of the schema (the steps are stored under `workflowSteps`), so for every
project, with or without a step named `stepName`, the call throws a `TypeError`
and no step is marked complete. -/
theorem completeWorkflowStep_throws (p : Project) (stepName person now : String) :
    p.arrayProp "workflow" = none ∧
    completeWorkflowStep p stepName person now = Except.error "TypeError" ∧
    (∀ q, completeWorkflowStep p stepName person now ≠ Except.ok q) ∧
    (∃ s ∈ projectScanning.workflowSteps, s.step = "Scanning") ∧
    completeWorkflowStep projectScanning "Scanning" "Ann" "2024-05-01T10:00:00.000Z" =
      Except.error "TypeError" := by
  have hprop : ∀ q : Project, q.arrayProp "workflow" = none := by
    intro q
    simp [Project.arrayProp]
  have hthrow : ∀ (q : Project) (a b c : String),
      completeWorkflowStep q a b c = Except.error "TypeError" := by
    intro q a b c
    simp [completeWorkflowStep, completeWorkflowStepAt, hprop q]
  refine ⟨hprop p, hthrow p _ _ _, ?_, ?_, hthrow _ _ _ _⟩
  · intro q h
    rw [hthrow] at h
    exact Except.noConfusion h
  · exact ⟨_, List.mem_cons_self _ _, rfl⟩

end Tracker

namespace Cypher

/-- The array of character codes is the list of code units itself. -/
theorem lowerCaseLetters_eq (userInput : List Nat) : lowerCaseLetters userInput = userInput := by
  simp [lowerCaseLetters, split, charCodeAt0, Function.comp_def]

/-- The loop computes the shift of the header comment on every code. -/
theorem shiftedAscii_eq_shift15 (c : Nat) : shiftedAscii c = shift15 c := by
  unfold shiftedAscii shift15 notAsNumber
  split_ifs <;> omega

/-- The cipher maps the input code unit by code unit. -/
theorem cipher_eq_map (userInput : List Nat) (h : ∀ u ∈ userInput, u < 65536) :
    cipher userInput = userInput.map shift15 := by
  unfold cipher convertedLetters
  rw [lowerCaseLetters_eq]
  induction userInput with
  | nil => rfl
  | cons c rest ih =>
    have hc : c < 65536 := h c (List.mem_cons_self _ _)
    have hs : shift15 c < 65536 := by
      unfold shift15
      split_ifs <;> omega
    have hrest := ih (fun u hu => h u (List.mem_cons_of_mem _ hu))
    simp only [List.map_cons, List.flatten_cons, fromCharCode, shiftedAscii_eq_shift15]
    rw [Nat.mod_eq_of_lt hs]
    simp only [List.singleton_append, List.cons.injEq, true_and]
    simpa [fromCharCode, shiftedAscii_eq_shift15] using hrest

/-- C21: for every input string (a list of UTF-16 code units) the output has
the same length and, at each position, the code `65 + (c - 65 + 15) mod 26` for
an upper-case letter `c`, `97 + (c - 97 + 15) mod 26` for a lower-case letter,
and `c` itself for every other code; `a` becomes `p`, `z` becomes `o`, and
"Hello, World!" becomes "Wtaad, Ldgas!". -/
theorem cipher_spec (userInput : List Nat) (h : ∀ u ∈ userInput, u < 65536) :
    (cipher userInput).length = userInput.length ∧
    (∀ (i c : Nat), userInput[i]? = some c →
      (cipher userInput)[i]? = some (shift15 c) ∧
      (65 ≤ c ∧ c ≤ 90 → shift15 c = 65 + (c - 65 + 15) % 26 ∧
        65 ≤ shift15 c ∧ shift15 c ≤ 90) ∧
      (97 ≤ c ∧ c ≤ 122 → shift15 c = 97 + (c - 97 + 15) % 26 ∧
        97 ≤ shift15 c ∧ shift15 c ≤ 122) ∧
      (¬ (65 ≤ c ∧ c ≤ 90) → ¬ (97 ≤ c ∧ c ≤ 122) → shift15 c = c)) ∧
    cipher (ofString "az") = ofString "po" ∧
    cipher (ofString "Hello, World!") = ofString "Wtaad, Ldgas!" := by
  have hmap := cipher_eq_map userInput h
  refine ⟨by rw [hmap, List.length_map], ?_, by decide, by decide⟩
  intro i c hi
  refine ⟨by rw [hmap, List.getElem?_map, hi]; rfl, ?_, ?_, ?_⟩
  · intro hc
    unfold shift15
    rw [if_pos hc]
    omega
  · intro hc
    unfold shift15
    rw [if_neg (by omega), if_pos hc]
    omega
  · intro h1 h2
    unfold shift15
    rw [if_neg h1, if_neg h2]

/-- Witness of C21 on the input "Hello, World!". -/
theorem cipher_spec_witness :
    (cipher (ofString "Hello, World!")).length = (ofString "Hello, World!").length ∧
    (∀ (i c : Nat), (ofString "Hello, World!")[i]? = some c →
      (cipher (ofString "Hello, World!"))[i]? = some (shift15 c) ∧
      (65 ≤ c ∧ c ≤ 90 → shift15 c = 65 + (c - 65 + 15) % 26 ∧
        65 ≤ shift15 c ∧ shift15 c ≤ 90) ∧
      (97 ≤ c ∧ c ≤ 122 → shift15 c = 97 + (c - 97 + 15) % 26 ∧
        97 ≤ shift15 c ∧ shift15 c ≤ 122) ∧
      (¬ (65 ≤ c ∧ c ≤ 90) → ¬ (97 ≤ c ∧ c ≤ 122) → shift15 c = c)) ∧
    cipher (ofString "az") = ofString "po" ∧
    cipher (ofString "Hello, World!") = ofString "Wtaad, Ldgas!" :=
  cipher_spec (ofString "Hello, World!") (by decide)

end Cypher

namespace Hangman

/-- The letters of `wordLetters word` are the letters of `word`. -/
theorem mem_wordLetters (word : List Char) (c : Char) :
    c ∈ wordLetters word ↔ c ∈ word := by
  induction word with
  | nil => simp [wordLetters]
  | cons d rest ih =>
    simp only [wordLetters, List.mem_cons, List.mem_filter, ih]
    constructor
    · rintro (h | ⟨h, -⟩)
      · exact Or.inl h
      · exact Or.inr h
    · intro h
      by_cases hcd : c = d
      · exact Or.inl hcd
      · rcases h with h | h
        · exact Or.inl h
        · exact Or.inr ⟨h, by simpa using hcd⟩

/-- The test `hasWon` of `checkWin`, as a proposition. -/
theorem hasWon_iff (word guessed : List Char) :
    (wordLetters word).all (fun letter => guessed.contains letter) = true ↔
      ∀ c ∈ word, c ∈ guessed := by
  simp only [List.all_eq_true, List.contains_eq_any_beq, List.any_eq_true, beq_iff_eq,
    mem_wordLetters]
  constructor
  · intro h c hc
    obtain ⟨x, hx, rfl⟩ := h c hc
    exact hx
  · intro h c hc
    exact ⟨c, h c hc, rfl⟩

/-- A guess outside a game in play changes nothing. -/
theorem handleGuess_not_playing (s : Game) (letter : Char)
    (h : s.gameStatus ≠ GameStatus.playing) : handleGuess s letter = s := by
  simp [handleGuess, h]

/-- A letter guessed before changes nothing. -/
theorem handleGuess_repeated (s : Game) (letter : Char)
    (h : letter ∈ s.guessedLetters) : handleGuess s letter = s := by
  have hc : s.guessedLetters.contains letter = true := by simpa using h
  unfold handleGuess
  by_cases h1 : s.gameStatus ≠ GameStatus.playing
  · rw [if_pos h1]
  · rw [if_neg h1, if_pos hc]

/-- A new letter that is not in the word: one more wrong guess, and the game is
lost when the counter reaches `MAX_WRONG_GUESSES`. -/
theorem handleGuess_wrong (s : Game) (letter : Char)
    (hp : s.gameStatus = GameStatus.playing) (hnew : letter ∉ s.guessedLetters)
    (hw : letter ∉ s.word) :
    handleGuess s letter =
      { word := s.word
        guessedLetters := s.guessedLetters ++ [letter]
        wrongGuesses := s.wrongGuesses + 1
        gameStatus := if s.wrongGuesses + 1 ≥ 5 then GameStatus.lost else GameStatus.playing } := by
  obtain ⟨word, guessed, wrong, status⟩ := s
  simp only at hp hnew hw
  subst hp
  have h1 : guessed.contains letter = false := by simpa using hnew
  have h2 : word.contains letter = false := by simpa using hw
  simp only [handleGuess, h1, h2, MAX_WRONG_GUESSES]
  split_ifs <;> simp_all

/-- A new letter that is in the word: the counter is kept, and the game is won
when every letter of the word is then guessed. -/
theorem handleGuess_right (s : Game) (letter : Char)
    (hp : s.gameStatus = GameStatus.playing) (hnew : letter ∉ s.guessedLetters)
    (hw : letter ∈ s.word) :
    handleGuess s letter =
      { word := s.word
        guessedLetters := s.guessedLetters ++ [letter]
        wrongGuesses := s.wrongGuesses
        gameStatus :=
          if ∀ c ∈ s.word, c ∈ s.guessedLetters ++ [letter] then GameStatus.won
          else GameStatus.playing } := by
  obtain ⟨word, guessed, wrong, status⟩ := s
  simp only at hp hnew hw
  subst hp
  have h1 : guessed.contains letter = false := by simpa using hnew
  have h2 : word.contains letter = true := by simpa using hw
  have h3 := hasWon_iff word (guessed ++ [letter])
  simp only [handleGuess, h1, h2, checkWin]
  by_cases hall : ∀ c ∈ word, c ∈ guessed ++ [letter]
  · rw [if_pos hall]
    have := h3.mpr hall
    simp_all
  · rw [if_neg hall]
    have : ¬ ((wordLetters word).all (fun letter_1 => (guessed ++ [letter]).contains letter_1)
        = true) := fun h => hall (h3.mp h)
    simp_all

/-- One guess keeps the relation between the status `lost` and the counter of
wrong guesses. -/
theorem lost_invariant_step (s : Game) (letter : Char)
    (hle : s.wrongGuesses ≤ 5)
    (hlost : s.gameStatus = GameStatus.lost ↔ s.wrongGuesses = 5) :
    (handleGuess s letter).wrongGuesses ≤ 5 ∧
    ((handleGuess s letter).gameStatus = GameStatus.lost ↔
      (handleGuess s letter).wrongGuesses = 5) := by
  by_cases hp : s.gameStatus = GameStatus.playing
  · have hlt : s.wrongGuesses < 5 := by
      rcases Nat.lt_or_ge s.wrongGuesses 5 with h | h
      · exact h
      · have h5 : s.wrongGuesses = 5 := le_antisymm hle h
        have := hlost.mpr h5
        rw [hp] at this
        exact absurd this (by decide)
    by_cases hnew : letter ∈ s.guessedLetters
    · rw [handleGuess_repeated s letter hnew]
      exact ⟨hle, hlost⟩
    · by_cases hw : letter ∈ s.word
      · rw [handleGuess_right s letter hp hnew hw]
        refine ⟨hle, ?_⟩
        simp only
        split_ifs
        · constructor
          · intro h; exact absurd h (by decide)
          · intro h; omega
        · constructor
          · intro h; exact absurd h (by decide)
          · intro h; omega
      · rw [handleGuess_wrong s letter hp hnew hw]
        simp only
        split_ifs with h5
        · exact ⟨by omega, fun _ => by omega, fun _ => rfl⟩
        · refine ⟨by omega, ?_, ?_⟩
          · intro h; exact absurd h (by decide)
          · intro h; omega
  · rw [handleGuess_not_playing s letter hp]
    exact ⟨hle, hlost⟩

/-- The relation of `lost_invariant_step` along a sequence of guesses. -/
theorem lost_invariant_play (guesses : List Char) :
    ∀ s : Game, s.wrongGuesses ≤ 5 →
      (s.gameStatus = GameStatus.lost ↔ s.wrongGuesses = 5) →
      (play s guesses).wrongGuesses ≤ 5 ∧
      ((play s guesses).gameStatus = GameStatus.lost ↔ (play s guesses).wrongGuesses = 5) := by
  induction guesses with
  | nil => intro s h1 h2; exact ⟨h1, h2⟩
  | cons g rest ih =>
    intro s h1 h2
    have h := lost_invariant_step s g h1 h2
    exact ih (handleGuess s g) h.1 h.2

/-- C22, as stated, fails: with the word "taco" the wrong guesses b, d, e, f
leave the game in play, and the fifth wrong guess g ends it with status `lost`
at 5 wrong guesses, before a sixth. -/
theorem lost_after_five_wrong_guesses :
    (play (startNewGame "taco".toList) ['b', 'd', 'e', 'f']).gameStatus
      = GameStatus.playing ∧
    (play (startNewGame "taco".toList) ['b', 'd', 'e', 'f']).wrongGuesses = 4 ∧
    (play (startNewGame "taco".toList) ['b', 'd', 'e', 'f', 'g']).gameStatus
      = GameStatus.lost ∧
    (play (startNewGame "taco".toList) ['b', 'd', 'e', 'f', 'g']).wrongGuesses = 5 ∧
    (play (startNewGame "taco".toList) ['b', 'd', 'e', 'f', 'g']).wrongGuesses < 6 := by
  refine ⟨by decide, by decide, by decide, by decide, by decide⟩

/-- The four ways a call of `handleGuess` can go: ignored outside a game in play,
ignored for a letter guessed before, a wrong guess, a right guess. -/
theorem handleGuess_cases (s : Game) (letter : Char) :
    (s.gameStatus ≠ GameStatus.playing ∧ handleGuess s letter = s) ∨
    (s.gameStatus = GameStatus.playing ∧ letter ∈ s.guessedLetters ∧
      handleGuess s letter = s) ∨
    (s.gameStatus = GameStatus.playing ∧ letter ∉ s.guessedLetters ∧ letter ∉ s.word ∧
      handleGuess s letter =
        { word := s.word
          guessedLetters := s.guessedLetters ++ [letter]
          wrongGuesses := s.wrongGuesses + 1
          gameStatus :=
            if s.wrongGuesses + 1 ≥ 5 then GameStatus.lost else GameStatus.playing }) ∨
    (s.gameStatus = GameStatus.playing ∧ letter ∉ s.guessedLetters ∧ letter ∈ s.word ∧
      handleGuess s letter =
        { word := s.word
          guessedLetters := s.guessedLetters ++ [letter]
          wrongGuesses := s.wrongGuesses
          gameStatus :=
            if ∀ c ∈ s.word, c ∈ s.guessedLetters ++ [letter] then GameStatus.won
            else GameStatus.playing }) := by
  by_cases hp : s.gameStatus = GameStatus.playing
  · by_cases hnew : letter ∈ s.guessedLetters
    · exact Or.inr (Or.inl ⟨hp, hnew, handleGuess_repeated s letter hnew⟩)
    · by_cases hw : letter ∈ s.word
      · exact Or.inr (Or.inr (Or.inr ⟨hp, hnew, hw, handleGuess_right s letter hp hnew hw⟩))
      · exact Or.inr (Or.inr (Or.inl ⟨hp, hnew, hw, handleGuess_wrong s letter hp hnew hw⟩))
  · exact Or.inl ⟨hp, handleGuess_not_playing s letter hp⟩

/-- What one guess keeps and changes: the guessed letters stay distinct, the
counter stays the number of wrong letters among them, the word is kept, the
guessed letters only grow, by the guess at most, and a game still in play has
recorded the guess. -/
theorem handleGuess_facts (s : Game) (letter : Char)
    (hnodup : s.guessedLetters.Nodup)
    (hcount : s.wrongGuesses = wrongLetters s.word s.guessedLetters) :
    (handleGuess s letter).guessedLetters.Nodup ∧
    (handleGuess s letter).wrongGuesses =
      wrongLetters (handleGuess s letter).word (handleGuess s letter).guessedLetters ∧
    (handleGuess s letter).word = s.word ∧
    (∀ x ∈ (handleGuess s letter).guessedLetters, x ∈ s.guessedLetters ∨ x = letter) ∧
    ((handleGuess s letter).gameStatus = GameStatus.playing →
      s.gameStatus = GameStatus.playing ∧ letter ∈ (handleGuess s letter).guessedLetters) ∧
    (∀ x ∈ s.guessedLetters, x ∈ (handleGuess s letter).guessedLetters) := by
  have hnd : letter ∉ s.guessedLetters → (s.guessedLetters ++ [letter]).Nodup := by
    intro hnew
    rw [List.nodup_append]
    refine ⟨hnodup, List.nodup_singleton _, ?_⟩
    intro a ha hb
    rw [List.mem_singleton] at hb
    exact hnew (hb ▸ ha)
  rcases handleGuess_cases s letter with ⟨hp, h⟩ | ⟨hp, hmem, h⟩ | ⟨hp, hnew, hw, h⟩ |
      ⟨hp, hnew, hw, h⟩
  · rw [h]
    exact ⟨hnodup, hcount, rfl, fun x hx => Or.inl hx, fun hplay => absurd hplay hp,
      fun x hx => hx⟩
  · rw [h]
    exact ⟨hnodup, hcount, rfl, fun x hx => Or.inl hx, fun _ => ⟨hp, hmem⟩, fun x hx => hx⟩
  · rw [h]
    have hc : s.word.contains letter = false := by simpa using hw
    refine ⟨hnd hnew, ?_, rfl, ?_, ?_, ?_⟩
    · simp only [wrongLetters, List.countP_append, List.countP_cons, List.countP_nil, hc]
      rw [hcount]
      simp [wrongLetters]
    · intro x hx
      rcases List.mem_append.mp hx with h1 | h1
      · exact Or.inl h1
      · exact Or.inr (List.mem_singleton.mp h1)
    · intro _
      exact ⟨hp, by simp⟩
    · intro x hx
      exact List.mem_append_left _ hx
  · rw [h]
    have hc : s.word.contains letter = true := by simpa using hw
    refine ⟨hnd hnew, ?_, rfl, ?_, ?_, ?_⟩
    · simp only [wrongLetters, List.countP_append, List.countP_cons, List.countP_nil, hc]
      rw [hcount]
      simp [wrongLetters]
    · intro x hx
      rcases List.mem_append.mp hx with h1 | h1
      · exact Or.inl h1
      · exact Or.inr (List.mem_singleton.mp h1)
    · intro _
      exact ⟨hp, by simp⟩
    · intro x hx
      exact List.mem_append_left _ hx

/-- The facts of `handleGuess_facts` along a sequence of guesses. -/
theorem play_facts (guesses : List Char) :
    ∀ s : Game, s.guessedLetters.Nodup →
      s.wrongGuesses = wrongLetters s.word s.guessedLetters →
      (play s guesses).guessedLetters.Nodup ∧
      (play s guesses).wrongGuesses =
        wrongLetters (play s guesses).word (play s guesses).guessedLetters ∧
      (play s guesses).word = s.word ∧
      (∀ x ∈ (play s guesses).guessedLetters, x ∈ s.guessedLetters ∨ x ∈ guesses) ∧
      ((play s guesses).gameStatus = GameStatus.playing →
        s.gameStatus = GameStatus.playing ∧
        ∀ x ∈ guesses, x ∈ (play s guesses).guessedLetters) ∧
      (∀ x ∈ s.guessedLetters, x ∈ (play s guesses).guessedLetters) := by
  induction guesses with
  | nil =>
    intro s h1 h2
    exact ⟨h1, h2, rfl, fun x hx => Or.inl hx,
      fun hp => ⟨hp, fun x hx => absurd hx (List.not_mem_nil x)⟩, fun x hx => hx⟩
  | cons g rest ih =>
    intro s h1 h2
    obtain ⟨a1, a2, a3, a4, a5, a6⟩ := handleGuess_facts s g h1 h2
    obtain ⟨b1, b2, b3, b4, b5, b6⟩ := ih (handleGuess s g) a1 a2
    have hplay : play s (g :: rest) = play (handleGuess s g) rest := rfl
    rw [hplay]
    refine ⟨b1, b2, b3.trans a3, ?_, ?_, fun x hx => b6 x (a6 x hx)⟩
    · intro x hx
      rcases b4 x hx with h | h
      · rcases a4 x h with h' | h'
        · exact Or.inl h'
        · exact Or.inr (h' ▸ List.mem_cons_self _ _)
      · exact Or.inr (List.mem_cons_of_mem _ h)
    · intro hp
      obtain ⟨c1, c2⟩ := b5 hp
      obtain ⟨d1, d2⟩ := a5 c1
      refine ⟨d1, ?_⟩
      intro x hx
      rcases List.mem_cons.mp hx with h | h
      · exact h ▸ b6 g d2
      · exact c2 x h

/-- Guesses after the end of the game change nothing. -/
theorem play_not_playing (guesses : List Char) :
    ∀ s : Game, s.gameStatus ≠ GameStatus.playing → play s guesses = s := by
  induction guesses with
  | nil => intro s _; rfl
  | cons g rest ih =>
    intro s hs
    have hplay : play s (g :: rest) = play (handleGuess s g) rest := rfl
    rw [hplay, handleGuess_not_playing s g hs]
    exact ih s hs

/-- Distinct new letters that are not in the word, guessed in a game in play:
each one adds 1 to the counter until it is 5, and the game is lost from the guess
on that makes it 5. -/
theorem play_wrong_letters (ws : List Char) :
    ∀ t : Game, t.gameStatus = GameStatus.playing → t.wrongGuesses < 5 → ws.Nodup →
      (∀ g ∈ ws, g ∉ t.word ∧ g ∉ t.guessedLetters) →
      (play t ws).wrongGuesses = min (t.wrongGuesses + ws.length) 5 ∧
      (play t ws).gameStatus =
        (if 5 ≤ t.wrongGuesses + ws.length then GameStatus.lost else GameStatus.playing) := by
  induction ws with
  | nil =>
    intro t hp hlt _ _
    refine ⟨?_, ?_⟩
    · show t.wrongGuesses = min (t.wrongGuesses + 0) 5
      omega
    · show t.gameStatus = _
      rw [if_neg (by simp only [List.length_nil]; omega)]
      exact hp
  | cons g rest ih =>
    intro t hp hlt hnd hall
    have hg := hall g (List.mem_cons_self _ _)
    have hstep := handleGuess_wrong t g hp hg.2 hg.1
    have hplay : play t (g :: rest) = play (handleGuess t g) rest := rfl
    rw [hplay]
    simp only [List.length_cons]
    by_cases h5 : t.wrongGuesses + 1 ≥ 5
    · have hlost : (handleGuess t g).gameStatus ≠ GameStatus.playing := by
        rw [hstep]
        simp only [h5, if_true]
        decide
      rw [play_not_playing rest _ hlost, hstep]
      simp only [h5, if_true]
      refine ⟨by omega, ?_⟩
      rw [if_pos (by omega)]
    · have hp1 : (handleGuess t g).gameStatus = GameStatus.playing := by
        rw [hstep]
        simp only [h5, if_false]
      have hw1 : (handleGuess t g).wrongGuesses = t.wrongGuesses + 1 := by rw [hstep]
      have hword1 : (handleGuess t g).word = t.word := by rw [hstep]
      have hgl1 : (handleGuess t g).guessedLetters = t.guessedLetters ++ [g] := by rw [hstep]
      have hnd' := List.nodup_cons.mp hnd
      have := ih (handleGuess t g) hp1 (by omega) hnd'.2 (by
        intro x hx
        have hx' := hall x (List.mem_cons_of_mem _ hx)
        rw [hword1, hgl1]
        refine ⟨hx'.1, ?_⟩
        intro hmem
        rcases List.mem_append.mp hmem with h | h
        · exact hx'.2 h
        · rw [List.mem_singleton] at h
          exact hnd'.1 (h ▸ hx))
      rw [hw1] at this
      refine ⟨by rw [this.1]; congr 1; omega, ?_⟩
      rw [this.2]
      by_cases h : 5 ≤ t.wrongGuesses + 1 + rest.length
      · rw [if_pos h, if_pos (by omega)]
      · rw [if_neg h, if_neg (by omega)]

/-- C22 (amended): the game is over at the 5th wrong guess. For every word, in a
new game, guessing `k` distinct letters that are not in the word sets the
counter to `min k 5` and leaves the game in play for `k < 5` and `lost` from the
5th on. For every sequence of guesses the guessed letters are distinct letters
of the sequence, none is dropped while the game is in play, the counter is the
number of guessed letters that are not in the word, it never exceeds 5
(`MAX_WRONG_GUESSES`), and the status is `lost` exactly when it is 5. -/
theorem lost_iff_five_wrong_guesses (word guesses wrong : List Char)
    (hdistinct : wrong.Nodup) (hwrong : ∀ g ∈ wrong, g ∉ word) :
    MAX_WRONG_GUESSES = 5 ∧
    (play (startNewGame word) wrong).wrongGuesses = min wrong.length 5 ∧
    (play (startNewGame word) wrong).gameStatus =
      (if 5 ≤ wrong.length then GameStatus.lost else GameStatus.playing) ∧
    (play (startNewGame word) guesses).word = word ∧
    (play (startNewGame word) guesses).guessedLetters.Nodup ∧
    (∀ g ∈ (play (startNewGame word) guesses).guessedLetters, g ∈ guesses) ∧
    ((play (startNewGame word) guesses).gameStatus = GameStatus.playing →
      ∀ g ∈ guesses, g ∈ (play (startNewGame word) guesses).guessedLetters) ∧
    (play (startNewGame word) guesses).wrongGuesses =
      wrongLetters word (play (startNewGame word) guesses).guessedLetters ∧
    (play (startNewGame word) guesses).wrongGuesses ≤ 5 ∧
    ((play (startNewGame word) guesses).gameStatus = GameStatus.lost ↔
      (play (startNewGame word) guesses).wrongGuesses = 5) := by
  have h := lost_invariant_play guesses (startNewGame word) (by simp [startNewGame])
    (by simp [startNewGame])
  obtain ⟨f1, f2, f3, f4, f5, -⟩ := play_facts guesses (startNewGame word)
    (by simp [startNewGame]) (by simp [startNewGame, wrongLetters])
  have hw := play_wrong_letters wrong (startNewGame word) rfl (by simp [startNewGame])
    hdistinct (fun g hg => ⟨hwrong g hg, by simp [startNewGame]⟩)
  have hzero : (startNewGame word).wrongGuesses = 0 := rfl
  rw [hzero, Nat.zero_add] at hw
  have hword : (play (startNewGame word) guesses).word = word := f3
  refine ⟨rfl, hw.1, hw.2, hword, f1, ?_, fun hp => (f5 hp).2, ?_, h.1, h.2⟩
  · intro g hg
    rcases f4 g hg with h' | h'
    · exact absurd h' (by simp [startNewGame])
    · exact h'
  · rw [f2, hword]

/-- Witness of the amended C22: the word "taco"; the five wrong letters b, d, e,
f, g lose the game; in the sequence t, b, a, b, d the repeated b is not counted. -/
theorem lost_iff_five_wrong_guesses_witness :
    MAX_WRONG_GUESSES = 5 ∧
    (play (startNewGame "taco".toList) ['b', 'd', 'e', 'f', 'g']).wrongGuesses =
      min ['b', 'd', 'e', 'f', 'g'].length 5 ∧
    (play (startNewGame "taco".toList) ['b', 'd', 'e', 'f', 'g']).gameStatus =
      (if 5 ≤ ['b', 'd', 'e', 'f', 'g'].length then GameStatus.lost
        else GameStatus.playing) ∧
    (play (startNewGame "taco".toList) ['t', 'b', 'a', 'b', 'd']).word = "taco".toList ∧
    (play (startNewGame "taco".toList) ['t', 'b', 'a', 'b', 'd']).guessedLetters.Nodup ∧
    (∀ g ∈ (play (startNewGame "taco".toList) ['t', 'b', 'a', 'b', 'd']).guessedLetters,
      g ∈ ['t', 'b', 'a', 'b', 'd']) ∧
    ((play (startNewGame "taco".toList) ['t', 'b', 'a', 'b', 'd']).gameStatus
        = GameStatus.playing →
      ∀ g ∈ ['t', 'b', 'a', 'b', 'd'],
        g ∈ (play (startNewGame "taco".toList) ['t', 'b', 'a', 'b', 'd']).guessedLetters) ∧
    (play (startNewGame "taco".toList) ['t', 'b', 'a', 'b', 'd']).wrongGuesses =
      wrongLetters "taco".toList
        (play (startNewGame "taco".toList) ['t', 'b', 'a', 'b', 'd']).guessedLetters ∧
    (play (startNewGame "taco".toList) ['t', 'b', 'a', 'b', 'd']).wrongGuesses ≤ 5 ∧
    ((play (startNewGame "taco".toList) ['t', 'b', 'a', 'b', 'd']).gameStatus
        = GameStatus.lost ↔
      (play (startNewGame "taco".toList) ['t', 'b', 'a', 'b', 'd']).wrongGuesses = 5) :=
  lost_iff_five_wrong_guesses "taco".toList ['t', 'b', 'a', 'b', 'd']
    ['b', 'd', 'e', 'f', 'g'] (by decide) (by decide)

end Hangman

namespace Hangman

/-- One guess keeps the fact that a game in play still has an unguessed letter. -/
theorem unguessed_invariant_step (s : Game) (letter : Char)
    (hinv : s.gameStatus = GameStatus.playing → s.word ≠ [] →
      ∃ c ∈ s.word, c ∉ s.guessedLetters) :
    (handleGuess s letter).gameStatus = GameStatus.playing →
      (handleGuess s letter).word ≠ [] →
      ∃ c ∈ (handleGuess s letter).word, c ∉ (handleGuess s letter).guessedLetters := by
  by_cases hp : s.gameStatus = GameStatus.playing
  · by_cases hnew : letter ∈ s.guessedLetters
    · rw [handleGuess_repeated s letter hnew]
      exact hinv
    · by_cases hw : letter ∈ s.word
      · rw [handleGuess_right s letter hp hnew hw]
        simp only
        intro hst _
        by_cases hall : ∀ c ∈ s.word, c ∈ s.guessedLetters ++ [letter]
        · rw [if_pos hall] at hst
          exact absurd hst (by decide)
        · push_neg at hall
          exact hall
      · rw [handleGuess_wrong s letter hp hnew hw]
        simp only
        intro _ hword
        obtain ⟨c, hc, hcg⟩ := hinv hp hword
        refine ⟨c, hc, ?_⟩
        intro hmem
        rcases List.mem_append.mp hmem with h | h
        · exact hcg h
        · rw [List.mem_singleton] at h
          exact hw (h ▸ hc)
  · rw [handleGuess_not_playing s letter hp]
    exact hinv

/-- In every state reached from a new game, a game in play with a non-empty word
still has an unguessed letter. -/
theorem unguessed_invariant_play (guesses : List Char) :
    ∀ s : Game,
      (s.gameStatus = GameStatus.playing → s.word ≠ [] →
        ∃ c ∈ s.word, c ∉ s.guessedLetters) →
      (play s guesses).gameStatus = GameStatus.playing → (play s guesses).word ≠ [] →
      ∃ c ∈ (play s guesses).word, c ∉ (play s guesses).guessedLetters := by
  induction guesses with
  | nil => intro s h; exact h
  | cons g rest ih =>
    intro s h
    exact ih (handleGuess s g) (unguessed_invariant_step s g h)

/-- C23: while playing, after `handleGuess` of a letter that occurs in the word,
the status is `won` if every distinct letter of the word is among the guessed
letters including this one, and `playing` otherwise. This holds in every state
in which the letter has not been guessed before, and in every state reached
from a new game by any guesses. -/
theorem won_iff_all_letters_guessed (s : Game) (letter : Char)
    (hp : s.gameStatus = GameStatus.playing) (hw : letter ∈ s.word)
    (hstate : letter ∉ s.guessedLetters ∨
      ∃ (word guesses : List Char), s = play (startNewGame word) guesses) :
    ((handleGuess s letter).gameStatus = GameStatus.won ↔
      ∀ c ∈ wordLetters s.word, c ∈ s.guessedLetters ++ [letter]) ∧
    (¬ (∀ c ∈ wordLetters s.word, c ∈ s.guessedLetters ++ [letter]) →
      (handleGuess s letter).gameStatus = GameStatus.playing) ∧
    (handleGuess s letter).wrongGuesses = s.wrongGuesses ∧
    (handleGuess s letter).word = s.word := by
  have hletters : (∀ c ∈ wordLetters s.word, c ∈ s.guessedLetters ++ [letter]) ↔
      ∀ c ∈ s.word, c ∈ s.guessedLetters ++ [letter] := by
    constructor
    · intro h c hc
      exact h c ((mem_wordLetters s.word c).mpr hc)
    · intro h c hc
      exact h c ((mem_wordLetters s.word c).mp hc)
  rw [hletters]
  by_cases hnew : letter ∈ s.guessedLetters
  · -- a repeated letter: only possible here in a state reached from a new game
    have hreach : ∃ (word guesses : List Char), s = play (startNewGame word) guesses := by
      rcases hstate with h | h
      · exact absurd hnew h
      · exact h
    obtain ⟨word, guesses, hs⟩ := hreach
    have hword : s.word ≠ [] := List.ne_nil_of_mem hw
    have hinv : ∃ c ∈ s.word, c ∉ s.guessedLetters := by
      have := unguessed_invariant_play guesses (startNewGame word)
        (by
          intro _ hne
          obtain ⟨c, hc⟩ := List.exists_mem_of_ne_nil _ hne
          exact ⟨c, hc, by simp [startNewGame]⟩)
      rw [← hs] at this
      exact this hp hword
    obtain ⟨c, hc, hcg⟩ := hinv
    have hnot : ¬ ∀ c ∈ s.word, c ∈ s.guessedLetters ++ [letter] := by
      intro hall
      rcases List.mem_append.mp (hall c hc) with h | h
      · exact hcg h
      · rw [List.mem_singleton] at h
        exact hcg (h ▸ hnew)
    rw [handleGuess_repeated s letter hnew]
    refine ⟨?_, fun _ => hp, rfl, rfl⟩
    constructor
    · intro h
      rw [hp] at h
      exact absurd h (by decide)
    · intro h
      exact absurd h hnot
  · rw [handleGuess_right s letter hp hnew hw]
    simp only
    by_cases hall : ∀ c ∈ s.word, c ∈ s.guessedLetters ++ [letter]
    · rw [if_pos hall]
      exact ⟨⟨fun _ => hall, fun _ => rfl⟩, fun h => absurd hall h, trivial, trivial⟩
    · rw [if_neg hall]
      refine ⟨⟨fun h => absurd h (by decide), fun h => absurd h hall⟩, fun _ => rfl,
        trivial, trivial⟩

/-- Witness of C23: the word "taco" with t, a, c guessed; the guess o wins. -/
theorem won_iff_all_letters_guessed_witness :
    ((handleGuess (play (startNewGame "taco".toList) ['t', 'a', 'c']) 'o').gameStatus
        = GameStatus.won ↔
      ∀ c ∈ wordLetters (play (startNewGame "taco".toList) ['t', 'a', 'c']).word,
        c ∈ (play (startNewGame "taco".toList) ['t', 'a', 'c']).guessedLetters ++ ['o']) ∧
    (¬ (∀ c ∈ wordLetters (play (startNewGame "taco".toList) ['t', 'a', 'c']).word,
        c ∈ (play (startNewGame "taco".toList) ['t', 'a', 'c']).guessedLetters ++ ['o']) →
      (handleGuess (play (startNewGame "taco".toList) ['t', 'a', 'c']) 'o').gameStatus
        = GameStatus.playing) ∧
    (handleGuess (play (startNewGame "taco".toList) ['t', 'a', 'c']) 'o').wrongGuesses =
      (play (startNewGame "taco".toList) ['t', 'a', 'c']).wrongGuesses ∧
    (handleGuess (play (startNewGame "taco".toList) ['t', 'a', 'c']) 'o').word =
      (play (startNewGame "taco".toList) ['t', 'a', 'c']).word :=
  won_iff_all_letters_guessed (play (startNewGame "taco".toList) ['t', 'a', 'c']) 'o'
    (by decide) (by decide) (Or.inl (by decide))

end Hangman

namespace Temperature

/-- C24 (code defect): line 34 tests the source unit `convertTemp` instead of
the answer `convertTempTo`. With a valid source unit (C, F or K) the target-unit
question is asked exactly once and the alert `unitMessage` is not shown,
whatever the answer is; for the answers c, 20, x (the text 20 being a number)
the script goes on to the `switch` and reports the same unit for source and
target. -/
theorem target_unit_is_not_validated (answer : Nat → String) (n : Nat) :
    askTarget answer "C" n =
      { events := [Event.promptTarget], value := toUpperCase (answer n), next := n + 1 } ∧
    askTarget answer "F" n =
      { events := [Event.promptTarget], value := toUpperCase (answer n), next := n + 1 } ∧
    askTarget answer "K" n =
      { events := [Event.promptTarget], value := toUpperCase (answer n), next := n + 1 } ∧
    (askSource answersCelsiusToX).value = "C" ∧
    (askTarget answersCelsiusToX "C" 2).value = "X" ∧
    script (fun text => decide (text = "20")) answersCelsiusToX =
      [Event.promptSource, Event.promptAmount, Event.promptTarget,
        Event.alertSameUnit "C"] ∧
    Event.alert unitMessage ∉ script (fun text => decide (text = "20")) answersCelsiusToX := by
  refine ⟨?_, ?_, ?_, by decide, by decide, by decide, by decide⟩
  · simp [askTarget]
  · simp [askTarget]
  · simp [askTarget]

end Temperature

namespace CoolTech

/-- The listing of `getAllCredentials`: for a user who is not an admin only
active credentials of the user's division, for an admin all active credentials. -/
theorem getAllCredentials_spec (user : User) (db : List Credential) :
    (user.role ≠ "admin" →
      ∀ c ∈ getAllCredentials user db, c.active = true ∧ user.division = some c.division) ∧
    (user.role = "admin" → getAllCredentials user db = db.filter (fun c => c.active)) := by
  constructor
  · intro hrole c hc
    simp only [getAllCredentials, hrole, ne_eq, not_false_eq_true, if_true, find,
      List.mem_filter, Filter.matches, Bool.and_eq_true, beq_iff_eq] at hc
    exact ⟨hc.2.1, hc.2.2⟩
  · intro hrole
    simp only [getAllCredentials, hrole, ne_eq, not_true_eq_false, if_false, find]
    congr 1
    funext c
    simp [Filter.matches]

/-- C25 (code defect): `getCredentialsByDivision` never looks at the user, so it
returns the active credentials of whatever division is asked for; the user of
role `normal` and division `d1` receives the credential `c2` of division `d2`. -/
theorem getCredentialsByDivision_ignores_user (user : User) (divisionId : String)
    (db : List Credential) :
    getCredentialsByDivision user divisionId db =
      db.filter (fun c => c.active && (c.division == divisionId)) ∧
    normalUser.role ≠ "admin" ∧
    getCredentialsByDivision normalUser "d2" exampleDb =
      [{ id := "c2", serviceName := "bank", division := "d2", active := true }] ∧
    (∃ c ∈ getCredentialsByDivision normalUser "d2" exampleDb,
      normalUser.division ≠ some c.division) ∧
    getAllCredentials normalUser exampleDb =
      [{ id := "c1", serviceName := "mail", division := "d1", active := true }] := by
  refine ⟨?_, by decide, by decide, ?_, by decide⟩
  · simp only [getCredentialsByDivision, find]
    congr 1
    funext c
    simp only [Filter.matches]
    by_cases h : c.division = divisionId
    · simp [h]
    · have h' : ¬ divisionId = c.division := fun e => h e.symm
      have e1 : (divisionId == c.division) = false := by simpa using h'
      have e2 : (c.division == divisionId) = false := by simpa using h
      simp [e1, e2]
  · exact ⟨{ id := "c2", serviceName := "bank", division := "d2", active := true },
      by decide, by decide⟩

end CoolTech

namespace MontyHall

/-- C26: `getMontyDoor` is total. For every `userChoice` and every `winningDoor`
the list `availableDoors` is not empty, so `availableDoors[0]` is defined; it is
one of the doors 1, 2, 3 and differs from both arguments; when `userChoice`
equals `winningDoor` no other door than `winningDoor` has a lower number. -/
theorem getMontyDoor_total (winningDoor userChoice : Int) :
    availableDoors winningDoor userChoice ≠ [] ∧
    ∃ m, getMontyDoor winningDoor userChoice = some m ∧ isDoor m ∧
      m ≠ winningDoor ∧ m ≠ userChoice ∧
      (userChoice = winningDoor → ∀ d, isDoor d → d ≠ winningDoor → m ≤ d) ∧
      (userChoice = winningDoor → winningDoor = 1 → m = 2) ∧
      (userChoice = winningDoor → winningDoor = 2 → m = 1) ∧
      (userChoice = winningDoor → winningDoor = 3 → m = 1) := by
  have key : ∀ (d : Int), ((d != userChoice) && (d != winningDoor)) =
      decide (d ≠ userChoice ∧ d ≠ winningDoor) := by
    intro d
    by_cases h1 : d = userChoice <;> by_cases h2 : d = winningDoor <;> simp [h1, h2]
  unfold getMontyDoor availableDoors allDoors isDoor
  simp only [List.filter_cons, List.filter_nil, key]
  by_cases a1 : (1 : Int) ≠ userChoice ∧ (1 : Int) ≠ winningDoor
  · simp only [a1, and_self, decide_True, if_true, ne_eq, not_false_eq_true,
      List.head?_cons, reduceCtorEq]
    refine ⟨trivial, 1, rfl, Or.inl rfl, a1.2, a1.1, ?_, ?_, ?_, ?_⟩
    · intro _ d hd _
      rcases hd with rfl | rfl | rfl <;> decide
    · intro h hw
      exact absurd hw.symm a1.2
    · intro _ _
      rfl
    · intro _ _
      rfl
  · have a1' : decide ((1 : Int) ≠ userChoice ∧ (1 : Int) ≠ winningDoor) = false := by
      simpa using a1
    rw [a1']
    by_cases a2 : (2 : Int) ≠ userChoice ∧ (2 : Int) ≠ winningDoor
    · have a2' : decide ((2 : Int) ≠ userChoice ∧ (2 : Int) ≠ winningDoor) = true := by
        simpa using a2
      rw [a2']
      simp only [if_true, Bool.false_eq_true, if_false, ne_eq, List.head?_cons,
        reduceCtorEq, not_false_eq_true]
      refine ⟨trivial, 2, rfl, Or.inr (Or.inl rfl), a2.2, a2.1, ?_, ?_, ?_, ?_⟩
      · intro h d hd hdw
        rcases hd with rfl | rfl | rfl <;> omega
      · intro _ _
        rfl
      · intro _ hw
        exact absurd hw.symm a2.2
      · intro h hw
        omega
    · have a2' : decide ((2 : Int) ≠ userChoice ∧ (2 : Int) ≠ winningDoor) = false := by
        simpa using a2
      rw [a2']
      have a3 : (3 : Int) ≠ userChoice ∧ (3 : Int) ≠ winningDoor := by
        constructor <;> omega
      have a3' : decide ((3 : Int) ≠ userChoice ∧ (3 : Int) ≠ winningDoor) = true := by
        simpa using a3
      rw [a3']
      simp only [if_true, Bool.false_eq_true, if_false, ne_eq, List.head?_cons,
        reduceCtorEq, not_false_eq_true]
      refine ⟨trivial, 3, rfl, Or.inr (Or.inr rfl), a3.2, a3.1, ?_, ?_, ?_, ?_⟩
      · intro h d hd hdw
        rcases hd with rfl | rfl | rfl <;> omega
      · intro h hw
        omega
      · intro h hw
        omega
      · intro h hw
        omega

end MontyHall

namespace Tracker

/-- A second run of the frontend check on its own result changes nothing. -/
theorem finalStatus_idem (steps : List WorkflowStep) (status : String) :
    finalStatus steps (finalStatus steps status) = finalStatus steps status := by
  rw [finalStatus_eq_ite steps status]
  split_ifs with h
  · rw [finalStatus_eq_ite, if_neg]
    rintro ⟨-, -, hc⟩
    simp [promotableStatuses] at hc
  · rw [finalStatus_eq_ite, if_neg h]

/-- C27: the frontend and the backend check agree and are idempotent. For every
step list and status, `updateProject` computes the status `finalStatus` computes
and keeps the steps; given the frontend's result with the same steps it changes
nothing; whatever `handleSubmit` saves passes `updateProject` unchanged; and
`updateProject` applied twice is `updateProject` applied once, for every body. -/
theorem frontend_backend_agree (steps : List WorkflowStep) (status : String)
    (fd : FormData) (body : RequestBody) :
    (updateProject { status := some status, workflowSteps := some steps }).status =
      some (finalStatus steps status) ∧
    (updateProject { status := some status, workflowSteps := some steps }).workflowSteps =
      some steps ∧
    updateProject { status := some (finalStatus steps status), workflowSteps := some steps } =
      { status := some (finalStatus steps status), workflowSteps := some steps } ∧
    (handleSubmit fd steps).map
        (fun pd => updateProject
          { status := some pd.form.status, workflowSteps := some pd.workflowSteps }) =
      (handleSubmit fd steps).map
        (fun pd => { status := some pd.form.status, workflowSteps := some pd.workflowSteps }) ∧
    updateProject (updateProject body) = updateProject body ∧
    finalStatus [] status = status ∧
    updateProject { status := some status, workflowSteps := some [] } =
      { status := some status, workflowSteps := some [] } := by
  have hfix : updateProject
      { status := some (finalStatus steps status), workflowSteps := some steps } =
      { status := some (finalStatus steps status), workflowSteps := some steps } := by
    rw [updateProject_eq, finalStatus_idem]
  refine ⟨by rw [updateProject_eq], by rw [updateProject_eq], hfix, ?_, ?_, ?_, ?_⟩
  · unfold handleSubmit
    split_ifs
    · rfl
    · simp only [Option.map_some']
      rw [updateProject_eq, finalStatus_idem]
  · obtain ⟨st, ws⟩ := body
    cases ws with
    | none => rfl
    | some l =>
      cases st with
      | none =>
        have h : updateProject { status := none, workflowSteps := some l } =
            { status := none, workflowSteps := some l } := by
          simp only [updateProject]
          split_ifs <;> simp_all
        rw [h, h]
      | some s =>
        rw [updateProject_eq, updateProject_eq, finalStatus_idem]
  · simp [finalStatus]
  · rw [updateProject_eq]
    simp [finalStatus]

/-- Names in a list of distinct catalog entries determine their index. -/
theorem catalog_index_unique (stages : List String) (hd : stages.Nodup) (i j : Nat)
    (name : String) (hi : stages[i]? = some name) (hj : stages[j]? = some name) : i = j := by
  obtain ⟨hi', hi''⟩ := List.getElem?_eq_some.mp hi
  obtain ⟨hj', hj''⟩ := List.getElem?_eq_some.mp hj
  exact (List.Nodup.getElem_inj_iff hd).mp (hi''.trans hj''.symm)

/-- C28: step names stay unique. For a catalog `stages` of distinct names, a
step list without repeated names and a selection that agrees with the list,
`handleCheckboxChange(step, index)` for a catalog entry `stages[index] = step`
yields again a list without repeated names and a selection that agrees with it. -/
theorem handleCheckboxChange_keeps_unique (stages : List String) (st : WorkflowState)
    (step : String) (index : Nat)
    (hcat : stages.Nodup) (hentry : stages[index]? = some step)
    (huniq : uniqueNames st.workflowSteps) (hsync : selectionMatches stages st) :
    uniqueNames (handleCheckboxChange st step index).workflowSteps ∧
    selectionMatches stages (handleCheckboxChange st step index) := by
  have hother : ∀ (i : Nat) (name : String), stages[i]? = some name → i ≠ index →
      name ≠ step := by
    intro i name hi hne hname
    exact hne (catalog_index_unique stages hcat i index step (hname ▸ hi) hentry)
  cases hbox : st.selectedSteps index with
  | false =>
    have habsent : ∀ s ∈ st.workflowSteps, s.step ≠ step := by
      intro s hs hname
      have := (hsync index step hentry).mpr ⟨s, hs, hname⟩
      rw [hbox] at this
      exact Bool.noConfusion this
    have hlist : (handleCheckboxChange st step index).workflowSteps =
        st.workflowSteps ++ [newStep step] := by
      simp [handleCheckboxChange, hbox]
    constructor
    · unfold uniqueNames at huniq ⊢
      rw [hlist, List.map_append, List.nodup_append]
      refine ⟨huniq, by simp, ?_⟩
      intro a ha hb
      simp only [List.map_cons, List.map_nil, List.mem_singleton, newStep] at hb
      obtain ⟨s, hs, rfl⟩ := List.mem_map.mp ha
      exact habsent s hs hb
    · intro i name hi
      rw [hlist]
      by_cases hidx : i = index
      · subst hidx
        have hname : name = step := by
          rw [hentry] at hi
          exact (Option.some.inj hi).symm
        subst hname
        constructor
        · intro _
          exact ⟨newStep name, by simp, rfl⟩
        · intro _
          simp [handleCheckboxChange, hbox]
      · have hsel : (handleCheckboxChange st step index).selectedSteps i =
            st.selectedSteps i := by
          simp [handleCheckboxChange, hidx]
        have hne := hother i name hi hidx
        rw [hsel, hsync i name hi]
        constructor
        · rintro ⟨s, hs, hname⟩
          exact ⟨s, List.mem_append_left _ hs, hname⟩
        · rintro ⟨s, hs, hname⟩
          rcases List.mem_append.mp hs with h | h
          · exact ⟨s, h, hname⟩
          · rw [List.mem_singleton] at h
            subst h
            exact absurd hname.symm hne
  | true =>
    have hlist : (handleCheckboxChange st step index).workflowSteps =
        st.workflowSteps.filter (fun s => s.step != step) := by
      simp [handleCheckboxChange, hbox]
    constructor
    · unfold uniqueNames at huniq ⊢
      rw [hlist]
      exact List.Nodup.sublist (List.Sublist.map _ (List.filter_sublist _)) huniq
    · intro i name hi
      rw [hlist]
      by_cases hidx : i = index
      · subst hidx
        have hname : name = step := by
          rw [hentry] at hi
          exact (Option.some.inj hi).symm
        subst hname
        have hsel : (handleCheckboxChange st name i).selectedSteps i = false := by
          simp [handleCheckboxChange, hbox]
        rw [hsel]
        constructor
        · intro h
          exact Bool.noConfusion h
        · rintro ⟨s, hs, hname⟩
          rw [List.mem_filter] at hs
          simp [hname] at hs
      · have hsel : (handleCheckboxChange st step index).selectedSteps i =
            st.selectedSteps i := by
          simp [handleCheckboxChange, hidx]
        have hne := hother i name hi hidx
        rw [hsel, hsync i name hi]
        constructor
        · rintro ⟨s, hs, hname⟩
          refine ⟨s, ?_, hname⟩
          rw [List.mem_filter]
          refine ⟨hs, ?_⟩
          have : s.step ≠ step := by rw [hname]; exact hne
          simpa using this
        · rintro ⟨s, hs, hname⟩
          rw [List.mem_filter] at hs
          exact ⟨s, hs.1, hname⟩

/-- Witness of C28: the catalog Scanning, Register, Processing with "Scanning"
selected; checking "Processing" at index 2. -/
theorem handleCheckboxChange_keeps_unique_witness :
    uniqueNames (handleCheckboxChange
      { selectedSteps := fun i => decide (i = 0), workflowSteps := [newStep "Scanning"] }
      "Processing" 2).workflowSteps ∧
    selectionMatches ["Scanning", "Register", "Processing"]
      (handleCheckboxChange
        { selectedSteps := fun i => decide (i = 0), workflowSteps := [newStep "Scanning"] }
        "Processing" 2) :=
  handleCheckboxChange_keeps_unique ["Scanning", "Register", "Processing"]
    { selectedSteps := fun i => decide (i = 0), workflowSteps := [newStep "Scanning"] }
    "Processing" 2 (by decide) rfl (by simp [uniqueNames, newStep])
    (by
      intro i name hi
      match i, hi with
      | 0, hi =>
        have : name = "Scanning" := by simpa using hi.symm
        subst this
        simp [newStep]
      | 1, hi =>
        have : name = "Register" := by simpa using hi.symm
        subst this
        simp [newStep]
      | 2, hi =>
        have : name = "Processing" := by simpa using hi.symm
        subst this
        simp [newStep]
      | n + 3, hi => simp at hi)

end Tracker
